import Mathlib

/-!
Verification of the reactive-notebook execution core (Backend of the
Reactive-Notebook-Environment repository).

The development shallowly embeds the Python modules `dependency.py`,
`reactor.py`, `executor.py` and `parser.py`:

* Python `set` values are modeled as insertion-ordered duplicate-free
  lists (`insertS` mirrors `set.add`); Python `dict` values are modeled
  as association lists whose update (`dinsert`) replaces in place, as a
  Python dict does, so key iteration order is insertion order.
* The Python `ast` analysis of a cell's source is embedded over an
  inductive fragment `PyStmt` / `PyExpr` of the Python abstract syntax:
  each constructor's treatment mirrors the corresponding
  `VariableVisitor.visit_*` method, including the traversal order of the
  node's fields.  A cell's `code` field holds the already-parsed module
  (`Option (List PyStmt)`, `none` standing for a `SyntaxError`), since
  the textual Python parser itself is outside the embedded core.
* Loops of the Python source that terminate for extrinsic reasons
  (DFS/BFS worklists) are embedded with an explicit fuel parameter that
  is, at every call site, at least the bound on the number of iterations
  the Python loop can perform; soundness lemmas are proved for every
  fuel, adequacy is used only where a claim needs it.
* User-code execution (`exec` in `executor.py`) is opaque to the core
  and is modeled as an oracle: a function from the shared namespace to
  the namespace it leaves behind plus the outcome.
-/

namespace NotebookSpec

/-! ## Ordered sets and dicts (Python `set` / `dict` model) -/

/-- `set.add`: append if not present, keeping insertion order. -/
def insertS (s : List String) (x : String) : List String :=
  if x ∈ s then s else s ++ [x]

/-- Lookup in an association-list dict (first matching key). -/
def dget {κ α : Type} [DecidableEq κ] : List (κ × α) → κ → Option α
  | [], _ => none
  | (k2, v) :: rest, k => if k2 = k then some v else dget rest k

/-- Lookup with default, i.e. Python `d.get(k, v0)`. -/
def dgetD {κ α : Type} [DecidableEq κ] (d : List (κ × α)) (k : κ) (v0 : α) : α :=
  (dget d k).getD v0

/-- Python `d[k] = v`: replace in place if the key exists, else append. -/
def dinsert {κ α : Type} [DecidableEq κ] : List (κ × α) → κ → α → List (κ × α)
  | [], k, v => [(k, v)]
  | (k2, w) :: rest, k, v =>
    if k2 = k then (k2, v) :: rest else (k2, w) :: dinsert rest k v

/-- Python `del d[k]` (removing every binding of the key). -/
def derase {κ α : Type} [DecidableEq κ] (d : List (κ × α)) (k : κ) : List (κ × α) :=
  d.filter (fun kv => kv.1 ≠ k)

/-- Update the value at a key in place, if present (no-op otherwise). -/
def dupd {κ α : Type} [DecidableEq κ] : List (κ × α) → κ → (α → α) → List (κ × α)
  | [], _, _ => []
  | (k2, w) :: rest, k, f =>
    if k2 = k then (k2, f w) :: dupd rest k f else (k2, w) :: dupd rest k f

/-! ## The analyzer (`dependency.py`): Python AST fragment and visitor -/

/-- Expression fragment of the Python AST.  `name` is an `ast.Name` in
`Load` context; `const` an `ast.Constant`; `binop` any binary operation
node (its two children are visited left to right, exactly what
`generic_visit` does). -/
inductive PyExpr : Type
  | name (id : String)
  | const
  | binop (l r : PyExpr)
deriving DecidableEq, Repr

/-- Statement fragment of the Python AST, covering the statements the
claims exercise.  `assign` is `ast.Assign` whose targets are plain
names (targets are visited before the value, matching the `_fields`
order of `ast.Assign`); `augAssign` is `ast.AugAssign` with a plain
name target; `funcDef` keeps only the default-argument expressions that
`visit_FunctionDef` descends into; `classDef` keeps the base-class
expressions; `importAs` is one imported-and-bound alias. -/
inductive PyStmt : Type
  | assign (targets : List String) (value : PyExpr)
  | augAssign (target : String) (value : PyExpr)
  | exprStmt (value : PyExpr)
  | funcDef (nm : String) (defaults : List PyExpr)
  | classDef (nm : String) (bases : List PyExpr)
  | importAs (nm : String)
deriving DecidableEq, Repr

/-- The mutable state of `VariableVisitor`. -/
structure VState where
  reads : List String
  writes : List String
  required_reads : List String
  local_scope : List String
deriving DecidableEq, Repr

def initV : VState := ⟨[], [], [], []⟩

/-- `visit_Name` in `Store` context: record a write and a local binding. -/
def bindName (s : VState) (id : String) : VState :=
  { s with writes := insertS s.writes id, local_scope := insertS s.local_scope id }

/-- `visit_Name` in `Load` context plus `generic_visit` recursion:
a read is recorded only when the name is not in the local scope. -/
def visitExpr : VState → PyExpr → VState
  | s, .name id =>
    if id ∈ s.local_scope then s else { s with reads := insertS s.reads id }
  | s, .const => s
  | s, .binop l r => visitExpr (visitExpr s l) r

/-- One statement of the module, mirroring the corresponding
`VariableVisitor.visit_*` method (field order included). -/
def visitStmt (s : VState) : PyStmt → VState
  | .assign targets value => visitExpr (targets.foldl bindName s) value
  | .augAssign target value =>
    let s1 :=
      if target ∈ s.local_scope then s
      else { s with reads := insertS s.reads target,
                    required_reads := insertS s.required_reads target }
    visitExpr (bindName s1 target) value
  | .exprStmt value => visitExpr s value
  | .funcDef nm defaults => defaults.foldl visitExpr (bindName s nm)
  | .classDef nm bases => bases.foldl visitExpr (bindName s nm)
  | .importAs nm => bindName s nm

/-- `visitor.visit(tree)` over a whole module. -/
def visitModule (stmts : List PyStmt) : VState :=
  stmts.foldl visitStmt initV

/-- The hand-maintained builtin exclusion list of `analyze_python_code`,
transcribed from the `common_builtins` set literal in the source. -/
def common_builtins : List String :=
  ["print", "len", "range", "str", "int", "float", "list", "dict", "set",
   "tuple", "bool", "type", "isinstance", "hasattr", "getattr", "setattr",
   "open", "file", "input", "output", "sum", "min", "max", "abs", "round",
   "sorted", "reversed", "enumerate", "zip", "map", "filter", "any", "all",
   "None", "True", "False", "Exception", "ValueError", "TypeError", "KeyError",
   "__name__", "__file__", "__doc__"]

/-- Set difference on the list model of Python sets. -/
def listDiff (xs ys : List String) : List String :=
  xs.filter (fun x => ¬ x ∈ ys)

/-- Set union on the list model of Python sets. -/
def listUnion (xs ys : List String) : List String :=
  ys.foldl insertS xs

/-- `analyze_python_code`: the argument is the parse result of the cell
source (`none` models a `SyntaxError`, which yields empty sets). -/
def analyze_python_code (code : Option (List PyStmt)) : List String × List String :=
  match code with
  | none => ([], [])
  | some stmts =>
    let v := visitModule stmts
    (listUnion (listDiff (listDiff v.reads common_builtins) v.writes) v.required_reads,
     v.writes)

/-- A notebook cell (`parser.Cell`) as consumed by the dependency and
reactor modules; the source text is carried as its parse result. -/
structure Cell where
  id : String
  code : Option (List PyStmt)
  cell_type : String
  as_var : Option String
deriving DecidableEq, Repr

/-- Result of analyzing a cell (`CellAnalysis`). -/
structure CellAnalysis where
  cell_id : String
  reads : List String
  writes : List String
deriving DecidableEq, Repr

/-- Python truthiness of the optional `as_var` string
(`None` and the empty string are falsy). -/
def asVarTruthy (a : Option String) : Bool :=
  match a with
  | none => false
  | some v => v ≠ ""

/-- `analyze_cell`: SQL cells read nothing and write their `as` variable
or the synthetic `_sql_<id>` name; Python cells go through the AST
analysis. -/
def analyze_cell (cell : Cell) : CellAnalysis :=
  if cell.cell_type = "sql" then
    let writes :=
      if asVarTruthy cell.as_var then [cell.as_var.getD ""] else ["_sql_" ++ cell.id]
    ⟨cell.id, [], writes⟩
  else
    let rw := analyze_python_code cell.code
    ⟨cell.id, rw.1, rw.2⟩

/-! ## Graph builder (`build_dependency_graph`) -/

/-- `build_dependency_graph`: analyses per cell, then a last-writer-wins
map from variable to writing cell, then an upstream-edge set per cell
(self edges skipped). -/
def build_dependency_graph (cells : List Cell) : List (String × List String) :=
  let analyses : List (String × CellAnalysis) :=
    cells.foldl (fun d c => dinsert d c.id (analyze_cell c)) []
  let var_to_cell : List (String × String) :=
    cells.foldl
      (fun m c =>
        ((dget analyses c.id).getD ⟨c.id, [], []⟩).writes.foldl
          (fun m2 v => dinsert m2 v c.id) m)
      []
  cells.foldl
    (fun g c =>
      let a := (dget analyses c.id).getD ⟨c.id, [], []⟩
      let deps := a.reads.foldl
        (fun ds v =>
          match dget var_to_cell v with
          | some up => if up ≠ c.id then insertS ds up else ds
          | none => ds)
        []
      dinsert g c.id deps)
    []

/-! ## Downstream closure (`get_downstream_cells`) -/

/-- Invert the upstream graph into the producer-to-consumers map
(`downstream` local dict in `get_downstream_cells`). -/
def invertGraph (graph : List (String × List String)) : List (String × List String) :=
  let ds0 := graph.foldl (fun d kv => dinsert d kv.1 ([] : List String)) []
  graph.foldl
    (fun d kv =>
      kv.2.foldl
        (fun d2 dep =>
          match dget d2 dep with
          | some cur => dinsert d2 dep (insertS cur kv.1)
          | none => d2)
        d)
    ds0

/-- The BFS worklist loop of `get_downstream_cells`.  The fuel counts
loop iterations; every call below supplies more fuel than the loop can
consume, and the soundness lemmas hold for every fuel. -/
def bfsGo (ds : List (String × List String)) :
    Nat → List String → List String → List String
  | 0, result, _ => result
  | _ + 1, result, [] => result
  | fuel + 1, result, current :: queue =>
    if current ∈ result then bfsGo ds fuel result queue
    else bfsGo ds fuel (result ++ [current]) (queue ++ dgetD ds current [])

/-- Fuel bound for the BFS: every enqueue is either initial or follows an
insertion into `result`, and `result` never exceeds the key count. -/
def bfsFuel (ds : List (String × List String)) (q0 : List String) : Nat :=
  q0.length + (ds.length + 1) * (ds.length + 1)

/-- `get_downstream_cells`. -/
def get_downstream_cells (graph : List (String × List String)) (cell_id : String) :
    List String :=
  let ds := invertGraph graph
  let q0 := dgetD ds cell_id []
  bfsGo ds (bfsFuel ds q0) [] q0

/-! ## Topological sort (`topological_sort`) -/

/-- State of the `visit` closure: accumulated post-order `result`, the
permanent `visited` set and the recursion-stack `temp_visited` set. -/
structure TopoState where
  result : List String
  visited : List String
  temp : List String
deriving DecidableEq, Repr

/-- The recursive `visit` of `topological_sort`.  A node on the
recursion stack or already finished is skipped; otherwise its
dependencies are visited first and the node is pushed in post-order.
Fuel bounds recursion depth, which in the source is at most the number
of distinct ids (each stack frame holds a distinct node of the
subgraph). -/
def topoVisit (subgraph : List (String × List String)) :
    Nat → String → TopoState → TopoState
  | 0, _, st => st
  | fuel + 1, node, st =>
    if node ∈ st.temp then st
    else if node ∈ st.visited then st
    else
      let st1 : TopoState := { st with temp := insertS st.temp node }
      let st2 := (dgetD subgraph node []).foldl
        (fun acc dep => topoVisit subgraph fuel dep acc) st1
      { result := st2.result ++ [node],
        visited := insertS st2.visited node,
        temp := st2.temp.filter (fun x => x ≠ node) }

/-- `topological_sort` over the subset `cell_ids`. -/
def topological_sort (graph : List (String × List String)) (cell_ids : List String) :
    List String :=
  let subgraph := graph.foldl
    (fun sg kv =>
      if kv.1 ∈ cell_ids then dinsert sg kv.1 (kv.2.filter (fun d => d ∈ cell_ids))
      else sg)
    []
  let stF := cell_ids.foldl
    (fun st cid =>
      if cid ∈ st.visited then st
      else topoVisit subgraph (cell_ids.length + 1) cid st)
    ⟨[], [], []⟩
  stF.result

/-! ## Cycle detection (`detect_cycle`) -/

inductive Color : Type
  | white
  | gray
  | black
deriving DecidableEq, Repr

/-- The cycle-reconstruction walk of `detect_cycle`: follow parent
pointers from `current` until the parent is falsy (`None` or the empty
string) or equals the gray neighbor.  Fuel bounds the walk; the parent
chain in the source is acyclic, of length at most the key count. -/
def cycleWalk (parent : List (String × Option String)) :
    Nat → String → String → List String → List String
  | 0, _, _, cyc => cyc
  | fuel + 1, neighbor, current, cyc =>
    match dgetD parent current none with
    | none => cyc
    | some p =>
      if p = "" then cyc
      else if p = neighbor then cyc
      else cycleWalk parent fuel neighbor p (cyc ++ [p])

/-- Color map and parent map threaded by the DFS of `detect_cycle`. -/
abbrev ColorMap := List (String × Color)

abbrev ParentMap := List (String × Option String)

abbrev DfsAcc := (ColorMap × ParentMap) × Option (List String)

/-- The body of the `for neighbor in graph.get(node, set())` loop of the
DFS, with the recursive call abstracted as `rec`.  A found cycle
short-circuits the rest of the loop, modeling the early `return`.  A
neighbor missing from the color map is skipped; a gray neighbor yields
the reconstructed cycle; a white neighbor gets its parent recorded and
is recursed into; a black neighbor is skipped. -/
def dfsStepF (graph : List (String × List String))
    (rec : String → ColorMap × ParentMap → DfsAcc)
    (node : String) (acc : DfsAcc) (n : String) : DfsAcc :=
  match acc with
  | (st, some cyc) => (st, some cyc)
  | ((c, p), none) =>
    match dget c n with
    | none => ((c, p), none)
    | some Color.gray =>
      ((c, p), some ([n, node] ++ cycleWalk p (graph.length + 1) n node []))
    | some Color.black => ((c, p), none)
    | some Color.white => rec n (c, dinsert p n (some node))

/-- The three-color DFS of `detect_cycle`.  Graying precedes the
neighbor loop and the node is blackened after it.  Fuel bounds
recursion depth: every frame grays a previously white node, so the
depth never exceeds the white count plus one, and every call below
supplies more. -/
def dfs (graph : List (String × List String)) :
    Nat → String → ColorMap × ParentMap → DfsAcc
  | 0, _, st => (st, none)
  | fuel + 1, node, (color, parent) =>
    let color1 := dinsert color node Color.gray
    let r := (dgetD graph node []).foldl (dfsStepF graph (dfs graph fuel) node)
      ((color1, parent), none)
    match r with
    | (st2, some cyc) => (st2, some cyc)
    | ((c2, p2), none) => ((dinsert c2 node Color.black, p2), none)

/-- The body of the `for node in graph` loop of `detect_cycle`. -/
def detectStep (graph : List (String × List String)) (acc : DfsAcc)
    (kv : String × List String) : DfsAcc :=
  match acc with
  | (st, some res) => (st, some res)
  | ((c, p), none) =>
    if dget c kv.1 = some Color.white then dfs graph (graph.length + 1) kv.1 (c, p)
    else ((c, p), none)

/-- `detect_cycle`: initialize every key white with no parent, then DFS
from every still-white key, returning the first cycle found. -/
def detect_cycle (graph : List (String × List String)) : Option (List String) :=
  let color0 := graph.foldl (fun c kv => dinsert c kv.1 Color.white) []
  let parent0 := graph.foldl
    (fun p kv => dinsert p kv.1 (none : Option String)) []
  (graph.foldl (detectStep graph) ((color0, parent0), none)).2

/-! ## Execution order (`get_execution_order`) -/

/-- `get_execution_order`: cycle check first, then downstream closure of
the changed cell, then topological sort of that set plus the changed
cell itself. -/
def get_execution_order (cells : List Cell) (changed_cell_id : String) :
    List String × Option (List String) :=
  let graph := build_dependency_graph cells
  match detect_cycle graph with
  | some cycle => ([], some cycle)
  | none =>
    let downstream := get_downstream_cells graph changed_cell_id
    let to_execute := insertS downstream changed_cell_id
    (topological_sort graph to_execute, none)

/-! ## Reactor (`reactor.py`) -/

inductive CellStatus : Type
  | idle
  | running
  | success
  | error
  | blocked
deriving DecidableEq, Repr

/-- Runtime state of a cell (`CellState` dataclass with its defaults). -/
structure CellState where
  cell_id : String
  status : CellStatus
  output : Option String
  output_type : String
  stdout : String
  error : Option String
  error_traceback : Option String
  blocked_by : Option String
deriving DecidableEq, Repr

/-- A fresh `CellState(cell_id=...)` with the dataclass defaults. -/
def initState (cid : String) : CellState :=
  ⟨cid, CellStatus.idle, none, "text", "", none, none, none⟩

/-- Result of executing a cell (`executor.ExecutionResult`). -/
structure ExecResult where
  cell_id : String
  success : Bool
  stdout : String
  result : Option String
  result_type : String
  error : Option String
  error_traceback : Option String
deriving DecidableEq, Repr

/-- The failure result produced when a SQL cell is run with no
`sql_executor` callback. -/
def noDbResult (cid : String) : ExecResult :=
  ⟨cid, false, "", none, "text", some "No database connection configured", none⟩

/-- Reactor state: the managed cell list and the per-cell states.  The
executor itself is abstracted into the oracle arguments of `run_cell`;
its namespace does not influence any of the state transitions proved
about. -/
structure ReactorState where
  cells : List Cell
  cell_states : List (String × CellState)
deriving DecidableEq, Repr

/-- `_update_status(cid, ...)`: mutate the state in place when present,
no-op when the id has no state. -/
def updState (states : List (String × CellState)) (cid : String)
    (f : CellState → CellState) : List (String × CellState) :=
  dupd states cid f

/-- Field assignments of the circular-dependency branch of `run_cell`. -/
def updCycleErr (msg : String) (st : CellState) : CellState :=
  { st with status := CellStatus.error, error := some msg }

/-- Field assignments of the blocked branch of `run_cell`. -/
def updBlocked (b : String) (st : CellState) : CellState :=
  { st with status := CellStatus.blocked, blocked_by := some b,
            error := some ("Blocked by failed cell: " ++ b) }

/-- Field assignments of the running transition of `run_cell`. -/
def updRunning (st : CellState) : CellState :=
  { st with status := CellStatus.running, blocked_by := none }

/-- Field assignments of the success branch of `run_cell`. -/
def updSuccess (res : ExecResult) (st : CellState) : CellState :=
  { st with status := CellStatus.success, output := res.result,
            output_type := res.result_type, stdout := res.stdout,
            error := none, error_traceback := none, blocked_by := none }

/-- Field assignments of the failure branch of `run_cell`. -/
def updError (res : ExecResult) (st : CellState) : CellState :=
  { st with status := CellStatus.error, output := none, stdout := res.stdout,
            error := res.error, error_traceback := res.error_traceback,
            blocked_by := none }

/-- `find_cell_by_id` from `parser.py`. -/
def find_cell_by_id (cells : List Cell) (cell_id : String) : Option Cell :=
  cells.find? (fun c => c.id = cell_id)

/-- Accumulator of the execution loop in `run_cell`: the evolving state
map, the `failed` set, the list of (ids of) returned states, and the
ids dispatched to the executor or to a provided query executor. -/
structure RunAcc where
  states : List (String × CellState)
  failed : List String
  results : List String
  dispatched : List String
deriving DecidableEq, Repr

/-- One iteration of the `for cid in order` loop of `run_cell`. -/
def runStep (cells : List Cell) (graph : List (String × List String))
    (ex : Cell → ExecResult) (sqlo : Option (Cell → ExecResult))
    (acc : RunAcc) (cid : String) : RunAcc :=
  match find_cell_by_id cells cid with
  | none => acc
  | some cell =>
    let deps := dgetD graph cid []
    match deps.find? (fun d => d ∈ acc.failed) with
    | some b =>
      { states := updState acc.states cid (updBlocked b),
        failed := insertS acc.failed cid,
        results := acc.results ++ [cid],
        dispatched := acc.dispatched }
    | none =>
      let st1 := updState acc.states cid updRunning
      let res :=
        if cell.cell_type = "sql" then
          match sqlo with
          | some f => f cell
          | none => noDbResult cid
        else ex cell
      let disp :=
        if cell.cell_type = "sql" then
          match sqlo with
          | some _ => acc.dispatched ++ [cid]
          | none => acc.dispatched
        else acc.dispatched ++ [cid]
      if res.success then
        { states := updState st1 cid (updSuccess res),
          failed := acc.failed,
          results := acc.results ++ [cid],
          dispatched := disp }
      else
        { states := updState st1 cid (updError res),
          failed := insertS acc.failed cid,
          results := acc.results ++ [cid],
          dispatched := disp }

/-- `Reactor.run_cell`.  Returns the new reactor state, the ids of the
returned `CellState` list (the source returns the state objects
themselves, which alias `cell_states`, so the returned list is exactly
the final states at those ids), and the ids dispatched for execution. -/
def run_cell (r : ReactorState) (cell_id : String) (ex : Cell → ExecResult)
    (sqlo : Option (Cell → ExecResult)) :
    ReactorState × List String × List String :=
  match get_execution_order r.cells cell_id with
  | (_, some cycle) =>
    let msg := "Circular dependency detected: " ++ String.intercalate " -> " cycle
    let states := cycle.foldl (fun st cid => updState st cid (updCycleErr msg)) r.cell_states
    (⟨r.cells, states⟩, cycle, [])
  | (order, none) =>
    let graph := build_dependency_graph r.cells
    let acc := order.foldl (runStep r.cells graph ex sqlo) ⟨r.cell_states, [], [], []⟩
    (⟨r.cells, acc.states⟩, acc.results, acc.dispatched)

/-- `Reactor.set_cells`: install the cells, create fresh states for new
ids, drop states of departed ids, and keep surviving states as they
are. -/
def set_cells (r : ReactorState) (cells : List Cell) : ReactorState :=
  let states1 := cells.foldl
    (fun st c => if (dget st c.id).isSome then st else st ++ [(c.id, initState c.id)])
    r.cell_states
  let ids := cells.map (fun c => c.id)
  ⟨cells, states1.filter (fun kv => kv.1 ∈ ids)⟩

/-- `Reactor.reset`: every state back to idle with the optional fields
cleared (the executor namespace reset is outside this model). -/
def reset (r : ReactorState) : ReactorState :=
  ⟨r.cells,
   r.cell_states.map (fun kv =>
     (kv.1,
      { kv.2 with status := CellStatus.idle, output := none, stdout := "",
                  error := none, error_traceback := none, blocked_by := none }))⟩

/-- The inner result-collection loop of `run_all_cells`: append each
result id not yet in the `executed` set to both the accumulated list
and the set. -/
def collectResults (res : List String) (p : List String × List String) :
    List String × List String :=
  res.foldl
    (fun (p : List String × List String) rid =>
      if rid ∈ p.2 then p else (p.1 ++ [rid], p.2 ++ [rid]))
    p

/-- One iteration of the `for root_id in root_cells` loop of
`run_all_cells`.  The accumulator is (reactor state, accumulated
results, executed set, dispatched ids). -/
def runAllStep (ex : Cell → ExecResult) (sqlo : Option (Cell → ExecResult))
    (acc : ReactorState × List String × List String × List String)
    (root_id : String) : ReactorState × List String × List String × List String :=
  if root_id ∈ acc.2.2.1 then acc
  else
    let t := run_cell acc.1 root_id ex sqlo
    let c := collectResults t.2.1 (acc.2.1, acc.2.2.1)
    (t.1, c.1, c.2, acc.2.2.2 ++ t.2.2)

/-- `Reactor.run_all_cells`: seed from the dependency roots in list
order (or the first cell when there is none), run each root not already
seen, and accumulate result ids first-seen-once. -/
def run_all_cells (r : ReactorState) (ex : Cell → ExecResult)
    (sqlo : Option (Cell → ExecResult)) :
    ReactorState × List String × List String :=
  match r.cells with
  | [] => (r, [], [])
  | c0 :: _ =>
    let graph := build_dependency_graph r.cells
    let roots0 := (r.cells.filter (fun c => dgetD graph c.id [] = [])).map (fun c => c.id)
    let roots := if roots0 = [] then [c0.id] else roots0
    let fin := roots.foldl (runAllStep ex sqlo) (r, [], [], [])
    (fin.1, fin.2.1, fin.2.2.2)

/-- The initial reactor (`Reactor()` with no cells). -/
def initReactor : ReactorState := ⟨[], []⟩

/-- States of the reactor reachable through its public operations, with
arbitrary executor and query-executor behavior. -/
inductive Reachable : ReactorState → Prop
  | init : Reachable initReactor
  | set_cells (r : ReactorState) (cells : List Cell) :
      Reachable r → Reachable (set_cells r cells)
  | run (r : ReactorState) (cid : String) (ex : Cell → ExecResult)
      (sqlo : Option (Cell → ExecResult)) :
      Reachable r → Reachable (run_cell r cid ex sqlo).1
  | run_all (r : ReactorState) (ex : Cell → ExecResult)
      (sqlo : Option (Cell → ExecResult)) :
      Reachable r → Reachable (run_all_cells r ex sqlo).1
  | reset (r : ReactorState) : Reachable r → Reachable (reset r)

/-! ## Executor (`executor.py`)

The user code run by `exec(code, self.namespace)` is opaque to the
executor; it is modeled as an oracle `behave` mapping the namespace to
the namespace it leaves behind (Python `exec` mutates the dict even
when it raises), an optional exception message (`str(e)`), the captured
stdout, and the formatted traceback.  Values are an arbitrary type `V`
and `_render_result` is a further oracle `render`. -/

/-- Outcome of `exec`-uting one cell's user code against a namespace. -/
structure RunOutcome (V : Type) where
  ns : List (String × V)
  exc : Option String
  out : String
  tb : String

/-- `Executor._execute_python_cell`, returning the `ExecutionResult` and
the namespace afterwards.  `codeEmpty` is the `if not code` test on the
stripped source.  On success the `_result` sentinel is popped and
rendered; on failure the namespace is left exactly as the exception
left it. -/
def execute_python_cell {V : Type} (render : V → String × String)
    (cell_id : String) (codeEmpty : Bool)
    (behave : List (String × V) → RunOutcome V)
    (ns : List (String × V)) : ExecResult × List (String × V) :=
  if codeEmpty then
    (⟨cell_id, true, "", none, "text", none, none⟩, ns)
  else
    let o := behave ns
    match o.exc with
    | none =>
      match dget o.ns "_result" with
      | some v =>
        let rt := render v
        (⟨cell_id, true, o.out, some rt.1, rt.2, none, none⟩, derase o.ns "_result")
      | none => (⟨cell_id, true, o.out, none, "text", none, none⟩, o.ns)
    | some msg =>
      (⟨cell_id, false, o.out, none, "error", some msg, some o.tb⟩, o.ns)

/-! ## Notebook text parser (`parser.py`)

The textual notebook format is embedded over `List Char` (the marker
regex, `str.strip`, `str.split` and `'\n'.join` become list functions).
`str.strip()` and the regex class `\s` are modeled over the ASCII
whitespace characters.  Cells of this module carry their source as
text, unlike the analyzed `Cell` record above. -/

/-- Notebook text as a character list. -/
abbrev Str := List Char

/-- String literal helper. -/
def lit (s : String) : Str := s.toList

/-- ASCII whitespace, the characters stripped by `str.strip()` and
matched by the regex class `\s`. -/
def pyWs (c : Char) : Bool :=
  c = ' ' ∨ c = '\t' ∨ c = '\n' ∨ c = '\r' ∨ c = '\x0b' ∨ c = '\x0c'

/-- `str.strip()`. -/
def pyStrip (s : Str) : Str :=
  ((s.dropWhile pyWs).reverse.dropWhile pyWs).reverse

/-- Match a literal prefix, returning the remainder. -/
def dropLit : Str → Str → Option Str
  | [], s => some s
  | c :: cs, d :: ds => if d = c then dropLit cs ds else none
  | _ :: _, [] => none

/-- `CELL_MARKER_PATTERN.match(line)`: the anchored regex
`# %%` `\s*` `[` `([^\]]+)` `]` `\s*` end, returning the bracketed
content.  The content class excludes `]`, so matching is
deterministic: everything up to the first `]`, which must exist, be
nonempty, and be followed only by whitespace. -/
def markerMatch (line : Str) : Option Str :=
  match dropLit (lit "# %%") line with
  | none => none
  | some rest =>
    match rest.dropWhile pyWs with
    | '[' :: rest2 =>
      match rest2.dropWhile (fun c => c ≠ ']') with
      | ']' :: tail =>
        if rest2.takeWhile (fun c => c ≠ ']') ≠ [] ∧ tail.all pyWs then
          some (rest2.takeWhile (fun c => c ≠ ']'))
        else none
      | _ => none
    | _ => none

/-- `parse_marker`: split the bracket content on commas and collect the
stripped `key: value` pairs into a dict (a part with no colon is
ignored; the split on the first colon keeps later colons in the
value).  `parseMarkerStep` is the per-part fold step. -/
def parseMarkerStep (acc : List (Str × Str)) (part : Str) : List (Str × Str) :=
  let part2 := pyStrip part
  if (':' : Char) ∈ part2 then
    let key := pyStrip (part2.takeWhile (fun c => c ≠ ':'))
    let val := pyStrip ((part2.dropWhile (fun c => c ≠ ':')).drop 1)
    dinsert acc key val
  else acc

def parse_marker (content : Str) : List (Str × Str) :=
  (content.splitOn ',').foldl parseMarkerStep []

/-- A parsed notebook cell (`parser.Cell` with textual source). -/
structure PCell where
  id : Str
  code : Str
  cell_type : Str
  as_var : Option Str
deriving DecidableEq, Repr

/-- Close the open cell: its code is the collected lines joined by
newlines and stripped. -/
def closeCell (h : Str × Str × Option Str) (acc : List Str) : PCell :=
  ⟨h.1, pyStrip (List.intercalate ['\n'] acc), h.2.1, h.2.2⟩

/-- Header read off a matched marker: id (or the next generated one),
type (defaulting to `python`) and the optional `as` binding, together
with the next generator index. -/
def hdrOfMarker (gen : Nat → Str) (content : Str) (k : Nat) :
    (Str × Str × Option Str) × Nat :=
  let md := parse_marker content
  match dget md (lit "id") with
  | some v =>
    ((v, (dget md (lit "type")).getD (lit "python"), dget md (lit "as")), k)
  | none =>
    ((gen k, (dget md (lit "type")).getD (lit "python"), dget md (lit "as")), k + 1)

/-- The list of cells closed when a new marker is reached. -/
def flushCur (cur : Option (Str × Str × Option Str)) (acc : List Str) : List PCell :=
  match cur with
  | none => []
  | some h0 => [closeCell h0 acc]

/-- The line scan of `parse_notebook`.  `cur` is the open cell header
(id, type, as), `acc` its collected code lines, `k` indexes the
`generate_cell_id` supply `gen` (modeling the fresh `uuid4().hex[:8]`
values drawn for markers without an id). -/
def parseLines (gen : Nat → Str) :
    List Str → Option (Str × Str × Option Str) → List Str → Nat → List PCell
  | [], none, _, _ => []
  | [], some h, acc, _ => [closeCell h acc]
  | line :: rest, cur, acc, k =>
    match markerMatch line with
    | some content =>
      flushCur cur acc
        ++ parseLines gen rest (some (hdrOfMarker gen content k).1) []
            (hdrOfMarker gen content k).2
    | none =>
      match cur with
      | none => parseLines gen rest none acc k
      | some c => parseLines gen rest (some c) (acc ++ [line]) k

/-- `parse_notebook` (the id-generation randomness is supplied as
`gen`). -/
def parse_notebook (content : Str) (gen : Nat → Str) : List PCell :=
  parseLines gen (content.splitOn '\n') none [] 0

/-- Python truthiness of the optional `as` value at the `Str` level. -/
def asTruthy (a : Option Str) : Bool :=
  match a with
  | none => false
  | some v => v ≠ []

/-- The `key: value` parts of a serialized marker (omitting `type` when
it is `python` and `as` when falsy). -/
def markerParts (c : PCell) : List Str :=
  [lit "id: " ++ c.id]
    ++ (if c.cell_type ≠ lit "python" then [lit "type: " ++ c.cell_type] else [])
    ++ (if asTruthy c.as_var then [lit "as: " ++ c.as_var.getD []] else [])

/-- The marker line a cell serializes to. -/
def markerLineOf (c : PCell) : Str :=
  lit "# %% [" ++ List.intercalate (lit ", ") (markerParts c) ++ lit "]"

/-- `serialize_cell`: the marker line followed by the raw code. -/
def serialize_cell (c : PCell) : Str :=
  markerLineOf c ++ '\n' :: c.code

/-- `serialize_notebook`: cells joined by a blank line, with a final
newline; the empty notebook serializes to the empty text. -/
def serialize_notebook (cells : List PCell) : Str :=
  if cells = [] then []
  else List.intercalate (lit "\n\n") (cells.map serialize_cell) ++ ['\n']

/-! ## C7: the final-reads formula of `analyze_python_code` -/

/-- The normative built-in exclusion set, transcribed from the spec's
enumeration in section 4.1 (independently of the source transcription
`common_builtins` above). -/
def spec_exclusion_set : List String :=
  ["print", "len", "range", "str", "int", "float", "list", "dict", "set",
   "tuple", "bool", "type", "isinstance", "hasattr", "getattr", "setattr",
   "open", "file", "input", "output", "sum", "min", "max", "abs", "round",
   "sorted", "reversed", "enumerate", "zip", "map", "filter", "any", "all",
   "None", "True", "False", "Exception", "ValueError", "TypeError", "KeyError",
   "__name__", "__file__", "__doc__"]

/-! ## C1: augmented assignment and the lost upstream dependency -/

/-- The two-cell notebook of the claim: `c1: counter = 0`,
`c2: counter += 1`. -/
def c1cell : Cell := ⟨"c1", some [.assign ["counter"] .const], "python", none⟩

def c2cell : Cell := ⟨"c2", some [.augAssign "counter" .const], "python", none⟩

/-- An executor oracle on which every cell succeeds. -/
def okOracle : Cell → ExecResult :=
  fun c => ⟨c.id, true, "", none, "text", none, none⟩

/-! ## C4: the downstream closure and its source -/

/-- One forward (producer-to-consumer) step of the inverted graph that
`get_downstream_cells` breadth-first searches. -/
def ConsumerEdge (graph : List (String × List String)) (u v : String) : Prop :=
  v ∈ dgetD (invertGraph graph) u []

/-! ## C2: run-all dispatch and result multiplicity -/

/-- The diamond notebook: `c1: x = 1`, `c2: y = 2`, `c3: z = x + y`.
Both `c1` and `c2` are roots and `c3` is downstream of each. -/
def cd1 : Cell := ⟨"c1", some [.assign ["x"] .const], "python", none⟩

def cd2 : Cell := ⟨"c2", some [.assign ["y"] .const], "python", none⟩

def cd3 : Cell := ⟨"c3", some [.assign ["z"] (.binop (.name "x") (.name "y"))], "python", none⟩

/-! ## C3: the `blocked_by` / `blocked` status invariant -/

/-- The invariant that actually holds of every reachable cell state:
a blocked cell always names its blocker, and a named blocker is only
retained by a blocked cell or by a cell moved to `error` (the
circular-dependency transition does not clear `blocked_by`). -/
def StateOk (st : CellState) : Prop :=
  (st.status = CellStatus.blocked → st.blocked_by ≠ none) ∧
  (st.blocked_by ≠ none →
    st.status = CellStatus.blocked ∨ st.status = CellStatus.error)

def StatesOk (states : List (String × CellState)) : Prop :=
  ∀ kv ∈ states, StateOk kv.2

/-- The cell `c2: y = x` reading the output of `c1`. -/
def cf2 : Cell := ⟨"c2", some [.assign ["y"] (.name "x")], "python", none⟩

/-- Replacement cells forming a two-cycle that includes the id `c2`. -/
def cf2b : Cell := ⟨"c2", some [.assign ["a"] (.name "b")], "python", none⟩

def cf3 : Cell := ⟨"c3", some [.assign ["b"] (.name "a")], "python", none⟩

/-- An executor oracle on which every cell fails. -/
def failOracle : Cell → ExecResult :=
  fun c => ⟨c.id, false, "", none, "error", some "boom", some "tb"⟩

/-- A reachable state falsifying the claimed iff: first `c1` fails and
blocks `c2` (so `blocked_by = c1`); then the cells are replaced so that
`c2` sits on a dependency cycle; the next run marks `c2` as `error`
without clearing `blocked_by`. -/
def badReactor : ReactorState :=
  (run_cell
    (set_cells ((run_cell (set_cells initReactor [cd1, cf2]) "c1" failOracle none).1)
      [cf2b, cf3])
    "c2" okOracle none).1

/-! ## Cycle-detection theory: soundness and completeness of `detect_cycle` -/

/-- The key list (Python dict iteration order) of a graph. -/
def keysOf (g : List (String × List String)) : List String := g.map Prod.fst

/-- The edge relation the DFS follows: `v` is among the recorded
upstream dependencies of `u`. -/
def DepEdge (g : List (String × List String)) (u v : String) : Prop :=
  v ∈ dgetD g u []

/-- The graph contains a directed cycle. -/
def HasCycle (g : List (String × List String)) : Prop :=
  ∃ n, Relation.TransGen (DepEdge g) n n

/-- Color predicates over the DFS color map. -/
def cWhite (c : ColorMap) (n : String) : Prop := dget c n = some Color.white

def cGray (c : ColorMap) (n : String) : Prop := dget c n = some Color.gray

def cBlack (c : ColorMap) (n : String) : Prop := dget c n = some Color.black

/-- The color map is defined exactly on the graph keys. -/
def cDom (g : List (String × List String)) (c : ColorMap) : Prop :=
  ∀ n, (dget c n).isSome ↔ n ∈ keysOf g

/-- Number of white keys, the quantity that bounds DFS recursion. -/
def whiteCount (g : List (String × List String)) (c : ColorMap) : Nat :=
  ((keysOf g).filter (fun k => dget c k = some Color.white)).length

/-- Invariant of the blackened region: blacks only point (within the
key set) at blacks, and a rank function strictly decreases along such
edges, so the blackened region is acyclic. -/
def BlackInv (g : List (String × List String)) (c : ColorMap) : Prop :=
  ∃ rnk : String → Nat, ∀ u v, cBlack c u → DepEdge g u v → v ∈ keysOf g →
    cBlack c v ∧ rnk v < rnk u

/-- The gray set is exactly a chain `gs` of edges (the current DFS
stack), whose last element (when nonempty) has an edge to `node`, the
vertex about to be visited. -/
def GrayChainTo (g : List (String × List String)) (c : ColorMap) (node : String) :
    Prop :=
  ∃ gs : List String, (∀ k, cGray c k ↔ k ∈ gs) ∧
    List.Chain' (DepEdge g) gs ∧
    (gs = [] ∨ ∃ l, gs.getLast? = some l ∧ DepEdge g l node)

/-- Loop invariant inside the neighbor fold: the grays are the chain
`gs` which ends at the currently visited (gray) `node`. -/
def LoopPre (g : List (String × List String)) (node : String) (gs : List String)
    (c : ColorMap) : Prop :=
  cDom g c ∧ BlackInv g c ∧
  (∀ k, cGray c k ↔ k ∈ gs) ∧ List.Chain' (DepEdge g) gs ∧
  gs.getLast? = some node

/-- Postcondition of a completed (cycle-free) DFS call. -/
def DfsPost (g : List (String × List String)) (c c2 : ColorMap) (node : String) :
    Prop :=
  cDom g c2 ∧ BlackInv g c2 ∧ cBlack c2 node ∧
  (∀ k, cBlack c k → cBlack c2 k) ∧
  (∀ k, cGray c2 k ↔ cGray c k) ∧
  (∀ k, cWhite c2 k → cWhite c k)

/-- Statement of the DFS specification at a given fuel (soundness of a
returned cycle, and the black/gray/white bookkeeping on a cycle-free
return). -/
def DfsSpec (g : List (String × List String)) (fuel : Nat) : Prop :=
  ∀ (node : String) (c : ColorMap) (p : ParentMap),
    node ∈ keysOf g → cWhite c node → cDom g c → BlackInv g c →
    GrayChainTo g c node → whiteCount g c < fuel →
    ((∀ cyc, (dfs g fuel node (c, p)).2 = some cyc → HasCycle g) ∧
      ((dfs g fuel node (c, p)).2 = none →
        DfsPost g c (dfs g fuel node (c, p)).1.1 node))

/-- The two-cell cyclic notebook `ca: a = b`, `cb: b = a`. -/
def cyca : Cell := ⟨"ca", some [.assign ["a"] (.name "b")], "python", none⟩

def cycb : Cell := ⟨"cb", some [.assign ["b"] (.name "a")], "python", none⟩

/-- Both ends of the list are free of whitespace. -/
def Stripped (s : Str) : Prop :=
  s.dropWhile pyWs = s ∧ s.reverse.dropWhile pyWs = s.reverse

/-- A marker value that serializes and re-parses unchanged: stripped and
free of `]`, `,` and newline.  Every value produced by `parse_marker`
has this shape, and so do the generated hexadecimal cell ids. -/
def WfVal (v : Str) : Prop :=
  pyStrip v = v ∧ (']' : Char) ∉ v ∧ (',' : Char) ∉ v ∧ ('\n' : Char) ∉ v

instance (v : Str) : Decidable (WfVal v) := by
  unfold WfVal
  infer_instance

/-- The parsed-cell shape the round trip relies on: well-formed marker
values and stripped code. -/
def WfCell (c : PCell) : Prop :=
  WfVal c.id ∧ WfVal c.cell_type ∧ (∀ v, c.as_var = some v → WfVal v) ∧
  pyStrip c.code = c.code

/-- Well-formedness of an open cell header inside the line scan. -/
def WfHdr : Option (Str × Str × Option Str) → Prop
  | none => True
  | some (i, t, a) => WfVal i ∧ WfVal t ∧ ∀ v, a = some v → WfVal v

/-- The serialized notebook, as the list of its lines: per cell the
marker line, the code's lines, and the blank separator (the final one
produced by the trailing newline). -/
def serLines (cells : List PCell) : List Str :=
  (cells.map (fun c => markerLineOf c :: (c.code.splitOn '\n' ++ [[]]))).flatten

/-- The bracket content of a cell's serialized marker line. -/
def innerOf (c : PCell) : Str :=
  List.intercalate (lit ", ") (markerParts c)

def rtGen (_ : Nat) : Str := lit "deadbeef"

def rtText1 : Str := lit "# %% [id: a, type: sql, as: out]\nselect 1\n\n# %% [id: b]\nx = 1"

def rtText2 : Str := lit "# %% [id: a]\n # %% [id: b]"

theorem dget_dinsert {κ α : Type} [DecidableEq κ] (d : List (κ × α)) (k k2 : κ) (v : α) :
    dget (dinsert d k v) k2 = if k = k2 then some v else dget d k2 := by
  induction d with
  | nil => simp [dinsert, dget]
  | cons kv rest ih =>
    obtain ⟨k1, w⟩ := kv
    by_cases h1 : k1 = k
    · subst h1
      simp only [dinsert, if_pos rfl, dget]
      by_cases h2 : k1 = k2
      · subst h2; simp
      · simp [h2, fun h => h2 (h : k1 = k2)]
    · simp only [dinsert, if_neg h1, dget]
      by_cases h2 : k1 = k2
      · subst h2
        have : ¬ k = k1 := fun h => h1 h.symm
        simp [this]
      · simp [h2, ih]

theorem dget_dupd {κ α : Type} [DecidableEq κ] (d : List (κ × α)) (k k2 : κ) (f : α → α) :
    dget (dupd d k f) k2 =
      if k = k2 then (dget d k2).map f else dget d k2 := by
  induction d with
  | nil => simp [dupd, dget]
  | cons kv rest ih =>
    obtain ⟨k1, w⟩ := kv
    by_cases h1 : k1 = k
    · subst h1
      simp only [dupd, if_pos rfl, dget]
      by_cases h2 : k1 = k2
      · subst h2; simp
      · simp [h2, ih]
    · simp only [dupd, if_neg h1, dget]
      by_cases h2 : k1 = k2
      · subst h2
        have hk : ¬ k1 = k1 → False := fun h => h rfl
        have hkk : k ≠ k1 := fun h => h1 h.symm
        simp [hkk]
      · simp [h2, ih]

theorem mem_insertS {s : List String} {x a : String} :
    a ∈ insertS s x ↔ a ∈ s ∨ a = x := by
  by_cases h : x ∈ s
  · simp only [insertS, if_pos h]
    constructor
    · exact fun h2 => Or.inl h2
    · rintro (h2 | rfl)
      · exact h2
      · exact h
  · simp [insertS, if_neg h]

theorem insertS_subset {s t : List String} {x : String}
    (hs : ∀ a ∈ s, a ∈ t) (hx : x ∈ t) : ∀ a ∈ insertS s x, a ∈ t := by
  intro a ha
  rcases mem_insertS.1 ha with h | rfl
  · exact hs a h
  · exact hx

/-! ## Set-model membership lemmas -/

theorem mem_listDiff {xs ys : List String} {a : String} :
    a ∈ listDiff xs ys ↔ a ∈ xs ∧ a ∉ ys := by
  simp [listDiff, List.mem_filter]

theorem mem_listUnion {xs ys : List String} {a : String} :
    a ∈ listUnion xs ys ↔ a ∈ xs ∨ a ∈ ys := by
  induction ys generalizing xs with
  | nil => simp [listUnion]
  | cons y ys ih =>
    show a ∈ listUnion (insertS xs y) ys ↔ _
    rw [ih, mem_insertS]
    simp only [List.mem_cons]
    tauto

/-- C7.  For every code cell (with parseable source), the final read set
computed by the analyzer is exactly
`(collected_reads - exclusion_set - collected_writes) ∪ required_reads`,
where the collected sets are those of the AST visitor, and the
exclusion set used by the code coincides with the spec's normative
enumeration. -/
theorem final_reads_formula :
    common_builtins = spec_exclusion_set ∧
    ∀ (c : Cell) (stmts : List PyStmt) (x : String),
      c.cell_type ≠ "sql" → c.code = some stmts →
      (x ∈ (analyze_cell c).reads ↔
        ((x ∈ (visitModule stmts).reads ∧ x ∉ spec_exclusion_set ∧
            x ∉ (visitModule stmts).writes)
          ∨ x ∈ (visitModule stmts).required_reads)) := by
  refine ⟨rfl, ?_⟩
  intro c stmts x hsql hcode
  have : analyze_cell c = ⟨c.id, (analyze_python_code c.code).1, (analyze_python_code c.code).2⟩ := by
    simp [analyze_cell, hsql]
  rw [this]
  simp only [hcode, analyze_python_code]
  rw [mem_listUnion, mem_listDiff, mem_listDiff]
  have hbi : common_builtins = spec_exclusion_set := rfl
  rw [hbi]
  tauto

/-- Witness for `final_reads_formula` at a concrete cell `y = x + 5`. -/
theorem final_reads_formula_witness :
    common_builtins = spec_exclusion_set ∧
    ("x" ∈ (analyze_cell ⟨"w1", some [.assign ["y"] (.binop (.name "x") .const)], "python", none⟩).reads ↔
      (("x" ∈ (visitModule [.assign ["y"] (.binop (.name "x") .const)]).reads ∧
          "x" ∉ spec_exclusion_set ∧
          "x" ∉ (visitModule [.assign ["y"] (.binop (.name "x") .const)]).writes)
        ∨ "x" ∈ (visitModule [.assign ["y"] (.binop (.name "x") .const)]).required_reads)) :=
  ⟨final_reads_formula.1,
   final_reads_formula.2
     ⟨"w1", some [.assign ["y"] (.binop (.name "x") .const)], "python", none⟩
     [.assign ["y"] (.binop (.name "x") .const)] "x" (by decide) rfl⟩

/-! ## C5: analysis of data-query (SQL) cells -/

/-- C5 counterexample.  The spec says the synthetic output name of a
query cell with no configured output binding is `_query_<id>`; the code
(and its own test suite) uses `_sql_<id>`.  At the concrete cell with
id `q1`, the write set is `{_sql_q1}`, not `{_query_q1}`. -/
theorem sql_writes_not_query_name :
    "_query_q1" ∉ (analyze_cell ⟨"q1", none, "sql", none⟩).writes ∧
    (analyze_cell ⟨"q1", none, "sql", none⟩).writes = ["_sql_q1"] := by
  constructor
  · decide
  · rfl

/-- C5 amended.  For every data-query cell, `analyze_cell` returns an
empty read set, and when no output-binding name is configured the write
set is exactly the synthetic name `_sql_<id>`. -/
theorem sql_cell_analysis (c : Cell) (hsql : c.cell_type = "sql") :
    (analyze_cell c).reads = [] ∧
    (c.as_var = none → (analyze_cell c).writes = ["_sql_" ++ c.id]) := by
  constructor
  · simp [analyze_cell, hsql]
  · intro hv
    simp [analyze_cell, hsql, hv, asVarTruthy]

/-- Witness for `sql_cell_analysis` at the cell `q1`. -/
theorem sql_cell_analysis_witness :
    (analyze_cell ⟨"q1", none, "sql", none⟩).reads = [] ∧
    ((⟨"q1", none, "sql", none⟩ : Cell).as_var = none →
      (analyze_cell ⟨"q1", none, "sql", none⟩).writes = ["_sql_" ++ "q1"]) :=
  sql_cell_analysis ⟨"q1", none, "sql", none⟩ rfl

/-- C1.  The analyzer does record `counter` as a (required) read of
`c2`, as the spec says; but `build_dependency_graph` resolves the name
`counter` to its last writer, which is `c2` itself, and drops the self
edge, so the dependency of `c2` on `c1` is lost: `run(c1)` computes the
execution order `[c1]` and dispatches only `c1`, not the claimed set
`{c1, c2}`. -/
theorem augassign_dependency_lost :
    "counter" ∈ (analyze_cell c2cell).reads ∧
    "counter" ∈ (visitModule [.augAssign "counter" .const]).required_reads ∧
    build_dependency_graph [c1cell, c2cell] = [("c1", []), ("c2", [])] ∧
    get_execution_order [c1cell, c2cell] "c1" = (["c1"], none) ∧
    (run_cell (set_cells initReactor [c1cell, c2cell]) "c1" okOracle none).2.2
      = ["c1"] := by
  refine ⟨by decide, by decide, by decide, by decide, by decide⟩

/-- A transition-closed property holding on the initial result and queue
holds on everything the BFS loop returns, for every fuel. -/
theorem bfsGo_sound (ds : List (String × List String)) (P : String → Prop)
    (hP : ∀ x, P x → ∀ y ∈ dgetD ds x [], P y) :
    ∀ (fuel : Nat) (result queue : List String),
      (∀ x ∈ result, P x) → (∀ x ∈ queue, P x) →
      ∀ x ∈ bfsGo ds fuel result queue, P x := by
  intro fuel
  induction fuel with
  | zero => intro result queue hr _ x hx; exact hr x hx
  | succ fuel ih =>
    intro result queue hr hq x hx
    match queue with
    | [] => exact hr x hx
    | current :: rest =>
      have hcur : P current := hq current (List.mem_cons_self _ _)
      have hrest : ∀ y ∈ rest, P y := fun y hy => hq y (List.mem_cons_of_mem _ hy)
      by_cases hmem : current ∈ result
      · rw [bfsGo, if_pos hmem] at hx
        exact ih result rest hr hrest x hx
      · rw [bfsGo, if_neg hmem] at hx
        refine ih (result ++ [current]) (rest ++ dgetD ds current []) ?_ ?_ x hx
        · intro y hy
          rcases List.mem_append.1 hy with h | h
          · exact hr y h
          · rcases List.mem_singleton.1 h with rfl
            exact hcur
        · intro y hy
          rcases List.mem_append.1 hy with h | h
          · exact hrest y h
          · exact hP current hcur y h

/-- C4 counterexample.  On the two-cycle graph `c1 ↔ c2`, the BFS of
`get_downstream_cells` re-reaches the source: `c1` is a member of its
own downstream set, refuting the claim that the source is always
excluded, in particular when a cycle passes through it. -/
theorem downstream_contains_source_on_cycle :
    "c1" ∈ get_downstream_cells [("c1", ["c2"]), ("c2", ["c1"])] "c1" := by
  decide

/-- C4 amended.  The downstream closure of `id` never contains `id`
itself provided no (forward) cycle of the graph passes through `id`;
everything the BFS returns is transitively consumer-reachable from the
source, so membership of the source would witness such a cycle. -/
theorem downstream_excludes_source (graph : List (String × List String))
    (cell_id : String)
    (hacyc : ¬ Relation.TransGen (ConsumerEdge graph) cell_id cell_id) :
    cell_id ∉ get_downstream_cells graph cell_id := by
  intro hmem
  apply hacyc
  have hsound := bfsGo_sound (invertGraph graph)
    (fun x => Relation.TransGen (ConsumerEdge graph) cell_id x)
    (fun x hx y hy => Relation.TransGen.tail hx hy)
    (bfsFuel (invertGraph graph) (dgetD (invertGraph graph) cell_id []))
    [] (dgetD (invertGraph graph) cell_id [])
    (by intro x hx; cases hx)
    (fun y hy => Relation.TransGen.single hy)
  exact hsound cell_id hmem

/-- A relation with no step at all has no transitive chain. -/
theorem transGen_of_empty {α : Type} {r : α → α → Prop} {x y : α}
    (h : ∀ a b, ¬ r a b) : ¬ Relation.TransGen r x y := by
  intro htg
  cases htg with
  | single hs => exact h _ _ hs
  | tail _ hs => exact h _ _ hs

/-- Witness for `downstream_excludes_source` on the edgeless one-node
graph. -/
theorem downstream_excludes_source_witness :
    (¬ Relation.TransGen (ConsumerEdge [("a", [])]) "a" "a") ∧
    "a" ∉ get_downstream_cells [("a", [])] "a" := by
  have hinv : invertGraph [("a", ([] : List String))] = [("a", [])] := by decide
  have hempty : ∀ u v, ¬ ConsumerEdge [("a", [])] u v := by
    intro u v hc
    unfold ConsumerEdge at hc
    rw [hinv] at hc
    by_cases hu : ("a" : String) = u
    · subst hu
      simp [dgetD, dget] at hc
    · simp [dgetD, dget, hu] at hc
  have h1 : ¬ Relation.TransGen (ConsumerEdge [("a", [])]) "a" "a" :=
    transGen_of_empty hempty
  exact ⟨h1, downstream_excludes_source [("a", [])] "a" h1⟩

/-- C2 counterexample.  In one `run_all` call over the diamond, the cell
`c3` is dispatched to the executor twice (once per root), refuting the
claim that no cell is executed twice within a single `run_all`;
the returned result list nevertheless lists `c3` once. -/
theorem run_all_dispatches_twice :
    (run_all_cells (set_cells initReactor [cd1, cd2, cd3]) okOracle none).2.2
      = ["c1", "c3", "c2", "c3"] ∧
    List.count "c3"
      (run_all_cells (set_cells initReactor [cd1, cd2, cd3]) okOracle none).2.2 = 2 ∧
    (run_all_cells (set_cells initReactor [cd1, cd2, cd3]) okOracle none).2.1
      = ["c1", "c3", "c2"] := by
  refine ⟨by decide, by decide, by decide⟩

/-- The result-collection loop of `run_all_cells` keeps the accumulated
list duplicate-free and inside the `executed` set. -/
theorem collectResults_invariant (res : List String) :
    ∀ (p : List String × List String), p.1.Nodup → (∀ x ∈ p.1, x ∈ p.2) →
      (collectResults res p).1.Nodup ∧
      (∀ x ∈ (collectResults res p).1, x ∈ (collectResults res p).2) := by
  induction res with
  | nil => intro p hnd hsub; exact ⟨hnd, hsub⟩
  | cons rid rest ih =>
    intro p hnd hsub
    show (collectResults rest _).1.Nodup ∧ _
    by_cases hr : rid ∈ p.2
    · have hstep : (if rid ∈ p.2 then p else (p.1 ++ [rid], p.2 ++ [rid])) = p :=
        if_pos hr
      unfold collectResults
      simp only [List.foldl_cons, hstep]
      exact ih p hnd hsub
    · have hstep : (if rid ∈ p.2 then p else (p.1 ++ [rid], p.2 ++ [rid]))
          = (p.1 ++ [rid], p.2 ++ [rid]) := if_neg hr
      unfold collectResults
      simp only [List.foldl_cons, hstep]
      refine ih (p.1 ++ [rid], p.2 ++ [rid]) ?_ ?_
      · refine List.Nodup.append hnd (List.nodup_singleton rid) ?_
        intro x hx hx2
        rcases List.mem_singleton.1 hx2 with rfl
        exact hr (hsub x hx)
      · intro x hx
        rcases List.mem_append.1 hx with h | h
        · exact List.mem_append.2 (Or.inl (hsub x h))
        · exact List.mem_append.2 (Or.inr h)

/-- The root loop of `run_all_cells` preserves the same invariant. -/
theorem runAllStep_fold_invariant (ex : Cell → ExecResult)
    (sqlo : Option (Cell → ExecResult)) (rs : List String) :
    ∀ (acc : ReactorState × List String × List String × List String),
      acc.2.1.Nodup → (∀ x ∈ acc.2.1, x ∈ acc.2.2.1) →
      (rs.foldl (runAllStep ex sqlo) acc).2.1.Nodup ∧
      (∀ x ∈ (rs.foldl (runAllStep ex sqlo) acc).2.1,
        x ∈ (rs.foldl (runAllStep ex sqlo) acc).2.2.1) := by
  induction rs with
  | nil => intro acc h1 h2; exact ⟨h1, h2⟩
  | cons root rest ih =>
    intro acc h1 h2
    simp only [List.foldl_cons]
    by_cases hin : root ∈ acc.2.2.1
    · rw [show runAllStep ex sqlo acc root = acc from if_pos hin]
      exact ih acc h1 h2
    · rw [show runAllStep ex sqlo acc root
          = ((run_cell acc.1 root ex sqlo).1,
             (collectResults (run_cell acc.1 root ex sqlo).2.1 (acc.2.1, acc.2.2.1)).1,
             (collectResults (run_cell acc.1 root ex sqlo).2.1 (acc.2.1, acc.2.2.1)).2,
             acc.2.2.2 ++ (run_cell acc.1 root ex sqlo).2.2) from if_neg hin]
      obtain ⟨hnd, hsub⟩ := collectResults_invariant
        (run_cell acc.1 root ex sqlo).2.1 (acc.2.1, acc.2.2.1) h1 h2
      exact ih _ hnd hsub

/-- C2 amended.  A single `run_all` call returns every cell at most once
(the returned state list has pairwise-distinct cell ids); the dedup in
the source applies to the returned list, not to dispatching, as the
counterexample shows. -/
theorem run_all_results_nodup (r : ReactorState) (ex : Cell → ExecResult)
    (sqlo : Option (Cell → ExecResult)) :
    (run_all_cells r ex sqlo).2.1.Nodup := by
  unfold run_all_cells
  match hc : r.cells with
  | [] => exact List.nodup_nil
  | c0 :: cs =>
    exact (runAllStep_fold_invariant ex sqlo _ (r, [], [], []) List.nodup_nil
      (by intro x hx; cases hx)).1

theorem dget_mem {κ α : Type} [DecidableEq κ] {d : List (κ × α)} {k : κ} {v : α}
    (h : dget d k = some v) : (k, v) ∈ d := by
  induction d with
  | nil => cases h
  | cons kv rest ih =>
    obtain ⟨k1, w⟩ := kv
    by_cases h1 : k1 = k
    · subst h1
      rw [dget, if_pos rfl] at h
      cases h
      exact List.mem_cons_self _ _
    · rw [dget, if_neg h1] at h
      exact List.mem_cons_of_mem _ (ih h)

theorem mem_dupd {κ α : Type} [DecidableEq κ] {d : List (κ × α)} {k : κ}
    {f : α → α} {kv : κ × α} (h : kv ∈ dupd d k f) :
    ∃ kv0 ∈ d, kv.2 = kv0.2 ∨ kv.2 = f kv0.2 := by
  induction d with
  | nil => cases h
  | cons kv1 rest ih =>
    obtain ⟨k1, w⟩ := kv1
    by_cases h1 : k1 = k
    · subst h1
      rw [dupd, if_pos rfl] at h
      rcases List.mem_cons.1 h with rfl | h2
      · exact ⟨(k1, w), List.mem_cons_self _ _, Or.inr rfl⟩
      · obtain ⟨kv0, hmem, hor⟩ := ih h2
        exact ⟨kv0, List.mem_cons_of_mem _ hmem, hor⟩
    · rw [dupd, if_neg h1] at h
      rcases List.mem_cons.1 h with rfl | h2
      · exact ⟨(k1, w), List.mem_cons_self _ _, Or.inl rfl⟩
      · obtain ⟨kv0, hmem, hor⟩ := ih h2
        exact ⟨kv0, List.mem_cons_of_mem _ hmem, hor⟩

theorem statesOk_updState {states : List (String × CellState)} {k : String}
    {f : CellState → CellState} (h : StatesOk states)
    (hf : ∀ st, StateOk (f st)) : StatesOk (updState states k f) := by
  intro kv hkv
  obtain ⟨kv0, hmem, hor⟩ := mem_dupd hkv
  rcases hor with heq | heq
  · rw [heq]; exact h kv0 hmem
  · rw [heq]; exact hf kv0.2

theorem stateOk_updCycleErr (msg : String) (st : CellState) :
    StateOk (updCycleErr msg st) := by
  constructor
  · intro h; cases h
  · intro _; exact Or.inr rfl

theorem stateOk_updBlocked (b : String) (st : CellState) :
    StateOk (updBlocked b st) := by
  constructor
  · intro _; simp [updBlocked]
  · intro _; exact Or.inl rfl

theorem stateOk_updRunning (st : CellState) : StateOk (updRunning st) := by
  constructor
  · intro h; cases h
  · intro h; exact absurd rfl h

theorem stateOk_updSuccess (res : ExecResult) (st : CellState) :
    StateOk (updSuccess res st) := by
  constructor
  · intro h; cases h
  · intro h; exact absurd rfl h

theorem stateOk_updError (res : ExecResult) (st : CellState) :
    StateOk (updError res st) := by
  constructor
  · intro h; cases h
  · intro h; exact absurd rfl h

theorem stateOk_initState (cid : String) : StateOk (initState cid) := by
  constructor
  · intro h; cases h
  · intro h; exact absurd rfl h

theorem statesOk_runStep (cells : List Cell) (graph : List (String × List String))
    (ex : Cell → ExecResult) (sqlo : Option (Cell → ExecResult))
    (acc : RunAcc) (cid : String) (h : StatesOk acc.states) :
    StatesOk (runStep cells graph ex sqlo acc cid).states := by
  unfold runStep
  cases hfind : find_cell_by_id cells cid with
  | none => exact h
  | some cell =>
    simp only
    cases hblk : (dgetD graph cid []).find? (fun d => d ∈ acc.failed) with
    | some b =>
      exact statesOk_updState h (stateOk_updBlocked b)
    | none =>
      simp only
      by_cases hs : (if cell.cell_type = "sql" then
          match sqlo with
          | some f => f cell
          | none => noDbResult cid
        else ex cell).success
      · rw [if_pos hs]
        exact statesOk_updState (statesOk_updState h stateOk_updRunning)
          (stateOk_updSuccess _)
      · rw [if_neg hs]
        exact statesOk_updState (statesOk_updState h stateOk_updRunning)
          (stateOk_updError _)

theorem statesOk_runStep_fold (cells : List Cell)
    (graph : List (String × List String)) (ex : Cell → ExecResult)
    (sqlo : Option (Cell → ExecResult)) (order : List String) :
    ∀ acc : RunAcc, StatesOk acc.states →
      StatesOk (order.foldl (runStep cells graph ex sqlo) acc).states := by
  induction order with
  | nil => intro acc h; exact h
  | cons cid rest ih =>
    intro acc h
    exact ih _ (statesOk_runStep cells graph ex sqlo acc cid h)

theorem statesOk_cycle_fold (msg : String) (cycle : List String) :
    ∀ states : List (String × CellState), StatesOk states →
      StatesOk (cycle.foldl (fun st cid => updState st cid (updCycleErr msg)) states) := by
  induction cycle with
  | nil => intro states h; exact h
  | cons cid rest ih =>
    intro states h
    exact ih _ (statesOk_updState h (stateOk_updCycleErr msg))

theorem statesOk_run_cell (r : ReactorState) (cid : String)
    (ex : Cell → ExecResult) (sqlo : Option (Cell → ExecResult))
    (h : StatesOk r.cell_states) :
    StatesOk (run_cell r cid ex sqlo).1.cell_states := by
  unfold run_cell
  cases hord : get_execution_order r.cells cid with
  | mk order ocyc =>
    cases ocyc with
    | some cycle => exact statesOk_cycle_fold _ cycle r.cell_states h
    | none => exact statesOk_runStep_fold _ _ ex sqlo order _ h

theorem statesOk_set_cells (r : ReactorState) (cells : List Cell)
    (h : StatesOk r.cell_states) : StatesOk (set_cells r cells).cell_states := by
  unfold set_cells
  have hfold : ∀ (cs : List Cell) (states : List (String × CellState)),
      StatesOk states →
      StatesOk (cs.foldl
        (fun st c => if (dget st c.id).isSome then st else st ++ [(c.id, initState c.id)])
        states) := by
    intro cs
    induction cs with
    | nil => intro states hst; exact hst
    | cons c rest ih =>
      intro states hst
      simp only [List.foldl_cons]
      by_cases hc : (dget states c.id).isSome
      · rw [if_pos hc]; exact ih states hst
      · rw [if_neg hc]
        refine ih _ ?_
        intro kv hkv
        rcases List.mem_append.1 hkv with h2 | h2
        · exact hst kv h2
        · rcases List.mem_singleton.1 h2 with rfl
          exact stateOk_initState c.id
  intro kv hkv
  exact hfold cells r.cell_states h kv (List.mem_filter.1 hkv).1

theorem statesOk_reset (r : ReactorState) (_h : StatesOk r.cell_states) :
    StatesOk (reset r).cell_states := by
  intro kv hkv
  unfold reset at hkv
  obtain ⟨kv0, _, heq⟩ := List.mem_map.1 hkv
  rw [← heq]
  constructor
  · intro h2; cases h2
  · intro h2; exact absurd rfl h2

theorem statesOk_run_all (r : ReactorState) (ex : Cell → ExecResult)
    (sqlo : Option (Cell → ExecResult)) (h : StatesOk r.cell_states) :
    StatesOk (run_all_cells r ex sqlo).1.cell_states := by
  unfold run_all_cells
  match hc : r.cells with
  | [] => exact h
  | c0 :: cs =>
    have hfold : ∀ (rs : List String)
        (acc : ReactorState × List String × List String × List String),
        StatesOk acc.1.cell_states →
        StatesOk ((rs.foldl (runAllStep ex sqlo) acc)).1.cell_states := by
      intro rs
      induction rs with
      | nil => intro acc ha; exact ha
      | cons root rest ih =>
        intro acc ha
        simp only [List.foldl_cons]
        by_cases hin : root ∈ acc.2.2.1
        · rw [show runAllStep ex sqlo acc root = acc from if_pos hin]
          exact ih acc ha
        · rw [show runAllStep ex sqlo acc root
              = ((run_cell acc.1 root ex sqlo).1,
                 (collectResults (run_cell acc.1 root ex sqlo).2.1 (acc.2.1, acc.2.2.1)).1,
                 (collectResults (run_cell acc.1 root ex sqlo).2.1 (acc.2.1, acc.2.2.1)).2,
                 acc.2.2.2 ++ (run_cell acc.1 root ex sqlo).2.2) from if_neg hin]
          exact ih _ (statesOk_run_cell acc.1 root ex sqlo ha)
    exact hfold _ (r, [], [], []) h

theorem statesOk_reachable (r : ReactorState) (hr : Reachable r) :
    StatesOk r.cell_states := by
  induction hr with
  | init => intro kv hkv; cases hkv
  | set_cells r cells _ ih => exact statesOk_set_cells r cells ih
  | run r cid ex sqlo _ ih => exact statesOk_run_cell r cid ex sqlo ih
  | run_all r ex sqlo _ ih => exact statesOk_run_all r ex sqlo ih
  | reset r _ ih => exact statesOk_reset r ih

/-- C3 counterexample.  `badReactor` is reachable by `set_cells`, `run`,
`set_cells`, `run`, and in it the state of `c2` has status `error`
together with a non-null `blocked_by`, refuting the claimed
equivalence. -/
theorem blocked_by_iff_fails :
    Reachable badReactor ∧
    (dget badReactor.cell_states "c2").map (fun st => (st.status, st.blocked_by))
      = some (CellStatus.error, some "c1") := by
  constructor
  · exact Reachable.run _ _ _ _
      (Reachable.set_cells _ _
        (Reachable.run _ _ _ _
          (Reachable.set_cells _ _ Reachable.init)))
  · decide

/-- C3 amended.  In every reachable reactor state, a blocked cell state
carries a non-null `blocked_by`, and a non-null `blocked_by` occurs only
on a cell whose status is `blocked` or `error` (the error case arises
from the circular-dependency transition, which does not clear the
field). -/
theorem blocked_by_status_invariant (r : ReactorState) (hr : Reachable r)
    (k : String) (st : CellState) (hst : dget r.cell_states k = some st) :
    (st.status = CellStatus.blocked → st.blocked_by ≠ none) ∧
    (st.blocked_by ≠ none →
      st.status = CellStatus.blocked ∨ st.status = CellStatus.error) :=
  statesOk_reachable r hr (k, st) (dget_mem hst)

/-- Witness for `blocked_by_status_invariant` on a freshly installed
cell. -/
theorem blocked_by_status_invariant_witness :
    Reachable (set_cells initReactor [cd1]) ∧
    dget (set_cells initReactor [cd1]).cell_states "c1" = some (initState "c1") ∧
    (((initState "c1").status = CellStatus.blocked → (initState "c1").blocked_by ≠ none) ∧
     ((initState "c1").blocked_by ≠ none →
       (initState "c1").status = CellStatus.blocked ∨
       (initState "c1").status = CellStatus.error)) :=
  ⟨Reachable.set_cells _ _ Reachable.init, by decide,
   blocked_by_status_invariant (set_cells initReactor [cd1])
     (Reachable.set_cells _ _ Reachable.init) "c1" (initState "c1") (by decide)⟩

/-! ## C10: the `_result` sentinel on the failure path -/

/-- C10.  If a cell's user code binds `_result` in the shared namespace
and then raises, `_execute_python_cell` reports failure and leaves the
namespace exactly as the exception left it, so `_result` is still
bound (the sentinel is popped only on the success path); a subsequently
executed cell that succeeds without touching the namespace then
observes the leftover sentinel as its own rendered result. -/
theorem sentinel_survives_failure {V : Type} (render : V → String × String)
    (cid cid2 : String) (behave behave2 : List (String × V) → RunOutcome V)
    (ns : List (String × V)) (v : V) (msg : String)
    (hexc : (behave ns).exc = some msg)
    (hres : dget (behave ns).ns "_result" = some v)
    (hobs : behave2 (behave ns).ns = ⟨(behave ns).ns, none, "", ""⟩) :
    (execute_python_cell render cid false behave ns).1.success = false ∧
    dget (execute_python_cell render cid false behave ns).2 "_result" = some v ∧
    (execute_python_cell render cid2 false behave2
        (execute_python_cell render cid false behave ns).2).1.result
      = some (render v).1 := by
  rcases hbe : behave ns with ⟨ns2, exc, out2, tb2⟩
  rw [hbe] at hexc hres hobs
  simp only at hexc hres hobs
  subst hexc
  have hfst : execute_python_cell render cid false behave ns
      = (⟨cid, false, out2, none, "error", some msg, some tb2⟩, ns2) := by
    unfold execute_python_cell
    rw [hbe]
    rfl
  refine ⟨by rw [hfst], by rw [hfst]; exact hres, ?_⟩
  rw [hfst]
  show (execute_python_cell render cid2 false behave2 ns2).1.result = _
  unfold execute_python_cell
  rw [hobs]
  show ((match dget ns2 "_result" with
    | some v =>
      ((⟨cid2, true, "", some (render v).1, (render v).2, none, none⟩ : ExecResult),
        derase ns2 "_result")
    | none =>
      ((⟨cid2, true, "", none, "text", none, none⟩ : ExecResult), ns2))).1.result = _
  rw [hres]

/-- Witness for `sentinel_survives_failure` with a one-binding concrete
namespace and oracles. -/
theorem sentinel_survives_failure_witness :
    ((fun (ns : List (String × Nat)) =>
        (⟨dinsert ns "_result" 7, some "boom", "", "tb"⟩ : RunOutcome Nat)) [] ).exc
      = some "boom" ∧
    (execute_python_cell (fun n => (toString n, "text")) "k1" false
        (fun ns => ⟨dinsert ns "_result" 7, some "boom", "", "tb"⟩)
        []).1.success = false ∧
    dget (execute_python_cell (fun n => (toString n, "text")) "k1" false
        (fun ns => ⟨dinsert ns "_result" 7, some "boom", "", "tb"⟩)
        []).2 "_result" = some 7 ∧
    (execute_python_cell (fun n => (toString n, "text")) "k2" false
        (fun ns => ⟨ns, none, "", ""⟩)
        (execute_python_cell (fun n => (toString n, "text")) "k1" false
          (fun ns => ⟨dinsert ns "_result" 7, some "boom", "", "tb"⟩)
          []).2).1.result
      = some ((fun (n : Nat) => (toString n, "text")) 7).1 := by
  have h := sentinel_survives_failure (fun (n : Nat) => (toString n, "text"))
    "k1" "k2"
    (fun ns => ⟨dinsert ns "_result" 7, some "boom", "", "tb"⟩)
    (fun ns => ⟨ns, none, "", ""⟩)
    [] 7 "boom" rfl rfl rfl
  exact ⟨rfl, h.1, h.2.1, h.2.2⟩

theorem dget_eq_none_iff {κ α : Type} [DecidableEq κ] {d : List (κ × α)} {k : κ} :
    dget d k = none ↔ k ∉ d.map Prod.fst := by
  induction d with
  | nil => simp [dget]
  | cons kv rest ih =>
    obtain ⟨k1, v⟩ := kv
    by_cases h1 : k1 = k
    · subst h1
      simp [dget]
    · rw [dget, if_neg h1]
      simp only [List.map_cons, List.mem_cons]
      rw [ih]
      constructor
      · intro h hc
        rcases hc with hc | hc
        · exact h1 hc.symm
        · exact h hc
      · intro h hc
        exact h (Or.inr hc)

theorem mem_keys_of_dget_some {κ α : Type} [DecidableEq κ] {d : List (κ × α)}
    {k : κ} {v : α} (h : dget d k = some v) : k ∈ d.map Prod.fst := by
  by_contra hmem
  rw [← dget_eq_none_iff] at hmem
  rw [h] at hmem
  cases hmem

theorem depEdge_src_mem {g : List (String × List String)} {u v : String}
    (h : DepEdge g u v) : u ∈ keysOf g := by
  unfold DepEdge dgetD at h
  cases hd : dget g u with
  | none => rw [hd] at h; cases h
  | some l => exact mem_keys_of_dget_some hd

theorem transGen_src_mem {g : List (String × List String)} {a b : String}
    (h : Relation.TransGen (DepEdge g) a b) : a ∈ keysOf g := by
  induction h with
  | single hs => exact depEdge_src_mem hs
  | tail _ _ ih => exact ih

/-- Walking a chain from any member reaches its last element. -/
theorem chain_reflTransGen_last {R : String → String → Prop} :
    ∀ (L : List String), List.Chain' R L → ∀ n ∈ L, ∀ l, L.getLast? = some l →
      Relation.ReflTransGen R n l := by
  intro L
  induction L with
  | nil => intro _ n hn; cases hn
  | cons a t ih =>
    intro hch n hn l hl
    match t with
    | [] =>
      rcases List.mem_singleton.1 hn with rfl
      cases hl
      exact Relation.ReflTransGen.refl
    | b :: t2 =>
      have hch2 : List.Chain' R (b :: t2) := (List.chain'_cons.1 hch).2
      have hR : R a b := (List.chain'_cons.1 hch).1
      have hl2 : (b :: t2).getLast? = some l := by
        rw [← hl]
        exact List.getLast?_cons_cons.symm
      rcases List.mem_cons.1 hn with rfl | hn2
      · exact Relation.ReflTransGen.head hR
          (ih hch2 b (List.mem_cons_self _ _) l hl2)
      · exact ih hch2 n hn2 l hl2

theorem filter_length_mono {l : List String} {p q : String → Bool}
    (h : ∀ x ∈ l, p x = true → q x = true) :
    (l.filter p).length ≤ (l.filter q).length := by
  induction l with
  | nil => exact Nat.le_refl _
  | cons a t ih =>
    have ht : ∀ x ∈ t, p x = true → q x = true :=
      fun x hx => h x (List.mem_cons_of_mem _ hx)
    by_cases hp : p a = true
    · rw [List.filter_cons_of_pos hp, List.filter_cons_of_pos (h a (List.mem_cons_self _ _) hp)]
      exact Nat.succ_le_succ (ih ht)
    · rw [List.filter_cons_of_neg (by simpa using hp)]
      by_cases hq : q a = true
      · rw [List.filter_cons_of_pos hq]
        exact Nat.le_succ_of_le (ih ht)
      · rw [List.filter_cons_of_neg (by simpa using hq)]
        exact ih ht

theorem filter_length_strict {l : List String} {p q : String → Bool} {x0 : String}
    (h : ∀ x ∈ l, p x = true → q x = true) (hx0 : x0 ∈ l)
    (hq0 : q x0 = true) (hp0 : p x0 = false) :
    (l.filter p).length < (l.filter q).length := by
  induction l with
  | nil => cases hx0
  | cons a t ih =>
    have ht : ∀ x ∈ t, p x = true → q x = true :=
      fun x hx => h x (List.mem_cons_of_mem _ hx)
    by_cases hp : p a = true
    · have hqa : q a = true := h a (List.mem_cons_self _ _) hp
      rw [List.filter_cons_of_pos hp, List.filter_cons_of_pos hqa]
      have hx0t : x0 ∈ t := by
        rcases List.mem_cons.1 hx0 with rfl | h2
        · rw [hp] at hp0; cases hp0
        · exact h2
      exact Nat.succ_lt_succ (ih ht hx0t)
    · rw [List.filter_cons_of_neg (by simpa using hp)]
      rcases List.mem_cons.1 hx0 with rfl | hx0t
      · rw [List.filter_cons_of_pos hq0]
        exact Nat.lt_succ_of_le (filter_length_mono ht)
      · by_cases hq : q a = true
        · rw [List.filter_cons_of_pos hq]
          exact Nat.lt_succ_of_lt (ih ht hx0t)
        · rw [List.filter_cons_of_neg (by simpa using hq)]
          exact ih ht hx0t

/-- A bound on a rank function over the key list. -/
theorem le_foldr_max (rnk : String → Nat) :
    ∀ (l : List String) (x : String), x ∈ l →
      rnk x ≤ (l.map rnk).foldr max 0 := by
  intro l
  induction l with
  | nil => intro x hx; cases hx
  | cons a t ih =>
    intro x hx
    rcases List.mem_cons.1 hx with rfl | hx2
    · exact Nat.le_max_left _ _
    · exact Nat.le_trans (ih x hx2) (Nat.le_max_right _ _)

/-- With every key black and the black invariant, the graph is acyclic. -/
theorem no_cycle_of_all_black {g : List (String × List String)} {c : ColorMap}
    (hb : ∀ k ∈ keysOf g, cBlack c k) (hinv : BlackInv g c) : ¬ HasCycle g := by
  obtain ⟨rnk, hrnk⟩ := hinv
  rintro ⟨n, htg⟩
  have main : ∀ a b : String, Relation.TransGen (DepEdge g) a b →
      b ∈ keysOf g → rnk b < rnk a := by
    intro a b htg2
    induction htg2 with
    | single hs =>
      intro hbk
      have ha : a ∈ keysOf g := depEdge_src_mem hs
      exact (hrnk _ _ (hb _ ha) hs hbk).2
    | tail htg3 hs ih =>
      intro hck
      have hbmem : _ ∈ keysOf g := depEdge_src_mem hs
      exact Nat.lt_trans (hrnk _ _ (hb _ hbmem) hs hck).2 (ih hbmem)
  exact Nat.lt_irrefl _ (main n n htg (transGen_src_mem htg))

theorem dget_dinsert_self {κ α : Type} [DecidableEq κ] (d : List (κ × α)) (k : κ)
    (v : α) : dget (dinsert d k v) k = some v := by
  rw [dget_dinsert, if_pos rfl]

theorem dget_dinsert_other {κ α : Type} [DecidableEq κ] (d : List (κ × α))
    {k k2 : κ} (v : α) (h : k ≠ k2) : dget (dinsert d k v) k2 = dget d k2 := by
  rw [dget_dinsert, if_neg h]

theorem cDom_dinsert {g : List (String × List String)} {c : ColorMap}
    {node : String} (col : Color) (hdom : cDom g c) (hmem : node ∈ keysOf g) :
    cDom g (dinsert c node col) := by
  intro n
  by_cases h : node = n
  · subst h
    rw [dget_dinsert_self]
    simpa using hmem
  · rw [dget_dinsert_other _ _ h]
    exact hdom n

/-- A found cycle short-circuits the rest of the neighbor loop. -/
theorem dfsStepF_foldl_some (g : List (String × List String))
    (rec : String → ColorMap × ParentMap → DfsAcc) (node : String) :
    ∀ (ns : List String) (st : ColorMap × ParentMap) (cyc : List String),
      ns.foldl (dfsStepF g rec node) (st, some cyc) = (st, some cyc) := by
  intro ns
  induction ns with
  | nil => intro st cyc; rfl
  | cons n rest ih => intro st cyc; exact ih st cyc

theorem whiteCount_mono {g : List (String × List String)} {c c2 : ColorMap}
    (h : ∀ k, cWhite c2 k → cWhite c k) : whiteCount g c2 ≤ whiteCount g c := by
  refine filter_length_mono ?_
  intro x _ hx
  have := h x (by simpa [cWhite] using hx)
  simpa [cWhite] using this

/-- The neighbor loop of the DFS: given the specification for the
recursive calls, the loop preserves the gray-chain invariant, grows the
black region to cover every key neighbor, and any cycle it reports is
real. -/
theorem dfsFold_spec (g : List (String × List String)) (fuel : Nat)
    (IH : DfsSpec g fuel) (node : String) (gs : List String) :
    ∀ (ns : List String) (c : ColorMap) (p : ParentMap),
      (∀ n ∈ ns, DepEdge g node n) →
      LoopPre g node gs c → whiteCount g c < fuel →
      ((∀ cyc,
          (ns.foldl (dfsStepF g (dfs g fuel) node) ((c, p), none)).2 = some cyc →
          HasCycle g) ∧
        ((ns.foldl (dfsStepF g (dfs g fuel) node) ((c, p), none)).2 = none →
          LoopPre g node gs
            (ns.foldl (dfsStepF g (dfs g fuel) node) ((c, p), none)).1.1 ∧
          whiteCount g
            (ns.foldl (dfsStepF g (dfs g fuel) node) ((c, p), none)).1.1 < fuel ∧
          (∀ k, cBlack c k →
            cBlack (ns.foldl (dfsStepF g (dfs g fuel) node) ((c, p), none)).1.1 k) ∧
          (∀ k, cWhite (ns.foldl (dfsStepF g (dfs g fuel) node) ((c, p), none)).1.1 k →
            cWhite c k) ∧
          (∀ n ∈ ns, n ∈ keysOf g →
            cBlack (ns.foldl (dfsStepF g (dfs g fuel) node) ((c, p), none)).1.1 n))) := by
  intro ns
  induction ns with
  | nil =>
    intro c p _ hpre hfuel
    refine ⟨?_, ?_⟩
    · intro cyc h; cases h
    · intro _
      refine ⟨hpre, hfuel, ?_, ?_, ?_⟩
      · intro k hk; exact hk
      · intro k hk; exact hk
      · intro n hn; cases hn
  | cons n rest ih =>
    intro c p hedges hpre hfuel
    obtain ⟨hdom, hinv, hgray, hchain, hlast⟩ := hpre
    have hedge_n : DepEdge g node n := hedges n (List.mem_cons_self _ _)
    have hedges_rest : ∀ m ∈ rest, DepEdge g node m :=
      fun m hm => hedges m (List.mem_cons_of_mem _ hm)
    simp only [List.foldl_cons]
    cases hdg : dget c n with
    | none =>
      have hstep : dfsStepF g (dfs g fuel) node ((c, p), none) n = ((c, p), none) := by
        simp [dfsStepF, hdg]
      rw [hstep]
      obtain ⟨hs, hn⟩ := ih c p hedges_rest ⟨hdom, hinv, hgray, hchain, hlast⟩ hfuel
      refine ⟨hs, fun hnone => ?_⟩
      obtain ⟨h1, h2, h3, h4, h5⟩ := hn hnone
      refine ⟨h1, h2, h3, h4, ?_⟩
      intro m hm hmk
      rcases List.mem_cons.1 hm with rfl | hm2
      · exfalso
        have := (hdom m).2 hmk
        rw [hdg] at this
        cases this
      · exact h5 m hm2 hmk
    | some col =>
      cases col with
      | gray =>
        have hstep : dfsStepF g (dfs g fuel) node ((c, p), none) n
            = ((c, p), some ([n, node] ++ cycleWalk p (g.length + 1) n node [])) := by
          simp [dfsStepF, hdg]
        rw [hstep, dfsStepF_foldl_some]
        constructor
        · intro cyc _
          have hn_gs : n ∈ gs := (hgray n).1 hdg
          have hrt : Relation.ReflTransGen (DepEdge g) n node :=
            chain_reflTransGen_last gs hchain n hn_gs node hlast
          exact ⟨n, Relation.TransGen.tail' hrt hedge_n⟩
        · intro h; cases h
      | black =>
        have hstep : dfsStepF g (dfs g fuel) node ((c, p), none) n = ((c, p), none) := by
          simp [dfsStepF, hdg]
        rw [hstep]
        obtain ⟨hs, hn⟩ := ih c p hedges_rest ⟨hdom, hinv, hgray, hchain, hlast⟩ hfuel
        refine ⟨hs, fun hnone => ?_⟩
        obtain ⟨h1, h2, h3, h4, h5⟩ := hn hnone
        refine ⟨h1, h2, h3, h4, ?_⟩
        intro m hm hmk
        rcases List.mem_cons.1 hm with rfl | hm2
        · exact h3 m hdg
        · exact h5 m hm2 hmk
      | white =>
        have hstep : dfsStepF g (dfs g fuel) node ((c, p), none) n
            = dfs g fuel n (c, dinsert p n (some node)) := by
          simp [dfsStepF, hdg]
        rw [hstep]
        have hnk : n ∈ keysOf g := by
          have : (dget c n).isSome := by rw [hdg]; rfl
          exact (hdom n).1 this
        have hchainTo : GrayChainTo g c n :=
          ⟨gs, hgray, hchain, Or.inr ⟨node, hlast, hedge_n⟩⟩
        obtain ⟨hsub_s, hsub_p⟩ := IH n c (dinsert p n (some node)) hnk hdg hdom hinv
          hchainTo hfuel
        cases hsubr : dfs g fuel n (c, dinsert p n (some node)) with
        | mk st2 res =>
          cases res with
          | some cyc0 =>
            rw [dfsStepF_foldl_some]
            constructor
            · intro cyc h2
              cases h2
              exact hsub_s cyc0 (by rw [hsubr])
            · intro h; cases h
          | none =>
            have hpost : DfsPost g c st2.1 n := by
              have := hsub_p (by rw [hsubr])
              rwa [hsubr] at this
            obtain ⟨pdom, pinv, pblack_n, pgrow, pgrays, pwhites⟩ := hpost
            have hpre2 : LoopPre g node gs st2.1 := by
              refine ⟨pdom, pinv, ?_, hchain, hlast⟩
              intro k
              rw [pgrays k]
              exact hgray k
            have hfuel2 : whiteCount g st2.1 < fuel :=
              Nat.lt_of_le_of_lt (whiteCount_mono pwhites) hfuel
            obtain ⟨hs2, hp2⟩ := ih st2.1 st2.2 hedges_rest hpre2 hfuel2
            constructor
            · intro cyc h2
              exact hs2 cyc h2
            · intro hnone
              obtain ⟨h1, h2, h3, h4, h5⟩ := hp2 hnone
              refine ⟨h1, h2, ?_, ?_, ?_⟩
              · intro k hk
                exact h3 k (pgrow k hk)
              · intro k hk
                exact pwhites k (h4 k hk)
              · intro m hm hmk
                rcases List.mem_cons.1 hm with rfl | hm2
                · exact h3 m pblack_n
                · exact h5 m hm2 hmk

theorem whiteCount_lt_of_gray {g : List (String × List String)} {c : ColorMap}
    {node : String} (hnode : node ∈ keysOf g) (hwhite : cWhite c node) :
    whiteCount g (dinsert c node Color.gray) < whiteCount g c := by
  refine filter_length_strict ?_ hnode ?_ ?_
  · intro x _ hx
    rw [decide_eq_true_eq] at hx ⊢
    by_cases hxn : node = x
    · subst hxn
      rw [dget_dinsert_self] at hx
      cases hx
    · rwa [dget_dinsert_other _ _ hxn] at hx
  · rw [decide_eq_true_eq]
    exact hwhite
  · rw [decide_eq_false_iff_not]
    rw [dget_dinsert_self]
    intro h
    cases h

theorem whiteCount_le_keys (g : List (String × List String)) (c : ColorMap) :
    whiteCount g c ≤ g.length := by
  have h1 : ((keysOf g).filter (fun k => dget c k = some Color.white)).length
      ≤ (keysOf g).length := List.length_filter_le _ _
  have h2 : (keysOf g).length = g.length := List.length_map _ _
  rw [whiteCount]
  omega

/-- The full DFS specification, by induction on fuel. -/
theorem dfs_spec (g : List (String × List String)) : ∀ fuel : Nat, DfsSpec g fuel := by
  intro fuel
  induction fuel with
  | zero =>
    intro node c p _ _ _ _ _ hfuel
    exact absurd hfuel (Nat.not_lt_zero _)
  | succ fuel ihf =>
    intro node c p hnode hwhite hdom hinv hchainTo hfuel
    obtain ⟨gs, hgray, hchain, hlink⟩ := hchainTo
    have hnb : ¬ cBlack c node := by
      intro hb
      rw [cBlack, cWhite.eq_def] at *
      rw [hwhite] at hb
      cases hb
    have hblack1 : ∀ k, cBlack (dinsert c node Color.gray) k ↔ cBlack c k := by
      intro k
      by_cases hk : node = k
      · subst hk
        rw [cBlack, dget_dinsert_self]
        constructor
        · intro h; cases h
        · intro h; exact absurd h hnb
      · rw [cBlack, dget_dinsert_other _ _ hk]
        exact Iff.rfl
    have hgray1 : ∀ k, cGray (dinsert c node Color.gray) k ↔ k ∈ gs ++ [node] := by
      intro k
      by_cases hk : node = k
      · subst hk
        rw [cGray, dget_dinsert_self]
        simp
      · rw [cGray, dget_dinsert_other _ _ hk]
        rw [show (dget c k = some Color.gray) = cGray c k from rfl, hgray k]
        simp only [List.mem_append, List.mem_singleton]
        constructor
        · intro h; exact Or.inl h
        · intro h
          rcases h with h | h
          · exact h
          · exact absurd h.symm hk
    have hchain1 : List.Chain' (DepEdge g) (gs ++ [node]) := by
      rw [List.chain'_append]
      refine ⟨hchain, List.chain'_singleton _, ?_⟩
      intro x hx y hy
      simp only [List.head?_cons, Option.mem_def, Option.some.injEq] at hy
      subst hy
      rcases hlink with hnil | ⟨l, hl, he⟩
      · subst hnil
        simp at hx
      · rw [hl] at hx
        simp only [Option.mem_def, Option.some.injEq] at hx
        subst hx
        exact he
    have hlast1 : (gs ++ [node]).getLast? = some node := List.getLast?_concat _
    have hinv1 : BlackInv g (dinsert c node Color.gray) := by
      obtain ⟨rnk, hrnk⟩ := hinv
      refine ⟨rnk, ?_⟩
      intro u v hu he hv
      obtain ⟨hbv, hlt⟩ := hrnk u v ((hblack1 u).1 hu) he hv
      exact ⟨(hblack1 v).2 hbv, hlt⟩
    have hloop : LoopPre g node (gs ++ [node]) (dinsert c node Color.gray) :=
      ⟨cDom_dinsert _ hdom hnode, hinv1, hgray1, hchain1, hlast1⟩
    have hfuel1 : whiteCount g (dinsert c node Color.gray) < fuel :=
      Nat.lt_of_lt_of_le (whiteCount_lt_of_gray hnode hwhite) (Nat.lt_succ_iff.1 hfuel)
    obtain ⟨hfs, hfp⟩ := dfsFold_spec g fuel ihf node (gs ++ [node]) (dgetD g node [])
      (dinsert c node Color.gray) p (fun n hn => hn) hloop hfuel1
    cases hr : (dgetD g node []).foldl (dfsStepF g (dfs g fuel) node)
        ((dinsert c node Color.gray, p), none) with
    | mk st2 res =>
      obtain ⟨c2, p2⟩ := st2
      cases res with
      | some cyc0 =>
        have hdfs : dfs g (fuel + 1) node (c, p) = ((c2, p2), some cyc0) := by
          simp only [dfs]
          rw [hr]
        constructor
        · intro cyc hcyc
          rw [hdfs] at hcyc
          exact hfs cyc (by rw [hr]; exact hcyc)
        · intro hnone
          rw [hdfs] at hnone
          cases hnone
      | none =>
        have hdfs : dfs g (fuel + 1) node (c, p)
            = ((dinsert c2 node Color.black, p2), none) := by
          simp only [dfs]
          rw [hr]
        refine ⟨?_, ?_⟩
        · intro cyc hcyc
          rw [hdfs] at hcyc
          cases hcyc
        · intro _
          rw [hdfs]
          have hfp2 := hfp (by rw [hr])
          rw [hr] at hfp2
          obtain ⟨⟨qdom, qinv, qgrays, _, _⟩, _, qgrow, qwhites, qnb⟩ := hfp2
          have hgray_node : cGray c2 node := (qgrays node).2 (by simp)
          have hnotblack2 : ¬ cBlack c2 node := by
            intro hb
            rw [cBlack] at hb
            rw [cGray] at hgray_node
            rw [hgray_node] at hb
            cases hb
          obtain ⟨rnk, hrnk⟩ := qinv
          refine ⟨cDom_dinsert _ qdom hnode, ?_, ?_, ?_, ?_, ?_⟩
          · -- BlackInv with node ranked above every key
            refine ⟨Function.update rnk node (((keysOf g).map rnk).foldr max 0 + 1), ?_⟩
            intro u v hu he hv
            by_cases hun : u = node
            · subst hun
              have hvb : cBlack c2 v := qnb v he hv
              have hvn : v ≠ u := by
                intro hvu
                rw [hvu] at hvb
                exact hnotblack2 hvb
              refine ⟨by rw [cBlack, dget_dinsert_other _ _ (fun h => hvn h.symm)]; exact hvb, ?_⟩
              rw [Function.update_noteq hvn, Function.update_same]
              exact Nat.lt_succ_of_le (le_foldr_max rnk (keysOf g) v hv)
            · have hub : cBlack c2 u := by
                rw [cBlack, dget_dinsert_other _ _ (fun h => hun h.symm)] at hu
                exact hu
              obtain ⟨hvb, hlt⟩ := hrnk u v hub he hv
              have hvn : v ≠ node := by
                intro hvu
                rw [hvu] at hvb
                exact hnotblack2 hvb
              refine ⟨by rw [cBlack, dget_dinsert_other _ _ (fun h => hvn h.symm)]; exact hvb, ?_⟩
              rw [Function.update_noteq hvn, Function.update_noteq hun]
              exact hlt
          · rw [cBlack, dget_dinsert_self]
          · intro k hk
            have hkn : node ≠ k := by
              intro h
              rw [← h] at hk
              exact hnb hk
            rw [cBlack, dget_dinsert_other _ _ hkn]
            exact qgrow k ((hblack1 k).2 hk)
          · intro k
            by_cases hk : node = k
            · subst hk
              rw [cGray, dget_dinsert_self]
              rw [cWhite] at hwhite
              rw [cGray, hwhite]
              constructor
              · intro h; cases h
              · intro h; cases h
            · rw [cGray, dget_dinsert_other _ _ hk]
              rw [show (dget c2 k = some Color.gray) = cGray c2 k from rfl, qgrays k]
              rw [hgray k]
              simp only [List.mem_append, List.mem_singleton]
              constructor
              · intro h
                rcases h with h | h
                · exact h
                · exact absurd h.symm hk
              · intro h; exact Or.inl h
          · intro k hk
            have hkn : node ≠ k := by
              intro h
              subst h
              rw [cWhite, dget_dinsert_self] at hk
              cases hk
            rw [cWhite, dget_dinsert_other _ _ hkn] at hk
            have hk1 : cWhite (dinsert c node Color.gray) k := qwhites k hk
            rw [cWhite, dget_dinsert_other _ _ hkn] at hk1
            exact hk1

theorem detectStep_foldl_some (g : List (String × List String)) :
    ∀ (rest : List (String × List String)) (st : ColorMap × ParentMap)
      (cyc : List String),
      rest.foldl (detectStep g) (st, some cyc) = (st, some cyc) := by
  intro rest
  induction rest with
  | nil => intro st cyc; rfl
  | cons kv t ih => intro st cyc; exact ih st cyc

/-- The key loop of `detect_cycle`: any reported cycle is real, and a
cycle-free pass leaves every visited key black with the acyclic black
invariant intact. -/
theorem detect_fold_spec (g : List (String × List String)) :
    ∀ (rest : List (String × List String)) (c : ColorMap) (p : ParentMap),
      (∀ kv ∈ rest, kv.1 ∈ keysOf g) →
      cDom g c → BlackInv g c → (∀ k, ¬ cGray c k) →
      ((∀ cyc, (rest.foldl (detectStep g) ((c, p), none)).2 = some cyc → HasCycle g) ∧
        ((rest.foldl (detectStep g) ((c, p), none)).2 = none →
          cDom g (rest.foldl (detectStep g) ((c, p), none)).1.1 ∧
          BlackInv g (rest.foldl (detectStep g) ((c, p), none)).1.1 ∧
          (∀ k, ¬ cGray (rest.foldl (detectStep g) ((c, p), none)).1.1 k) ∧
          (∀ k, cBlack c k → cBlack (rest.foldl (detectStep g) ((c, p), none)).1.1 k) ∧
          (∀ kv ∈ rest, cBlack (rest.foldl (detectStep g) ((c, p), none)).1.1 kv.1))) := by
  intro rest
  induction rest with
  | nil =>
    intro c p _ hdom hinv hng
    refine ⟨?_, ?_⟩
    · intro cyc h; cases h
    · intro _
      refine ⟨hdom, hinv, hng, fun k hk => hk, ?_⟩
      intro kv hkv; cases hkv
  | cons kv t ih =>
    intro c p hkeys hdom hinv hng
    have hkvk : kv.1 ∈ keysOf g := hkeys kv (List.mem_cons_self _ _)
    have hkeys_t : ∀ kv2 ∈ t, kv2.1 ∈ keysOf g :=
      fun kv2 h => hkeys kv2 (List.mem_cons_of_mem _ h)
    simp only [List.foldl_cons]
    by_cases hw : dget c kv.1 = some Color.white
    · have hstep : detectStep g ((c, p), none) kv
          = dfs g (g.length + 1) kv.1 (c, p) := by
        simp [detectStep, hw]
      rw [hstep]
      have hchainTo : GrayChainTo g c kv.1 := by
        refine ⟨[], ?_, List.chain'_nil, Or.inl rfl⟩
        intro k
        constructor
        · intro h; exact absurd h (hng k)
        · intro h; cases h
      have hfuel : whiteCount g c < g.length + 1 :=
        Nat.lt_succ_of_le (whiteCount_le_keys g c)
      obtain ⟨hds, hdp⟩ := dfs_spec g (g.length + 1) kv.1 c p hkvk hw hdom hinv
        hchainTo hfuel
      cases hr : dfs g (g.length + 1) kv.1 (c, p) with
      | mk st2 res =>
        cases res with
        | some cyc0 =>
          rw [detectStep_foldl_some]
          refine ⟨?_, ?_⟩
          · intro cyc h2
            cases h2
            exact hds cyc0 (by rw [hr])
          · intro h; cases h
        | none =>
          have hpost : DfsPost g c st2.1 kv.1 := by
            have := hdp (by rw [hr])
            rwa [hr] at this
          obtain ⟨pdom, pinv, pblack, pgrow, pgrays, _⟩ := hpost
          have hng2 : ∀ k, ¬ cGray st2.1 k := by
            intro k hk
            exact hng k ((pgrays k).1 hk)
          obtain ⟨hs2, hp2⟩ := ih st2.1 st2.2 hkeys_t pdom pinv hng2
          refine ⟨hs2, ?_⟩
          intro hnone
          obtain ⟨h1, h2, h3, h4, h5⟩ := hp2 hnone
          refine ⟨h1, h2, h3, ?_, ?_⟩
          · intro k hk
            exact h4 k (pgrow k hk)
          · intro kv2 hkv2
            rcases List.mem_cons.1 hkv2 with rfl | hm
            · exact h4 kv2.1 pblack
            · exact h5 kv2 hm
    · have hstep : detectStep g ((c, p), none) kv = ((c, p), none) := by
        simp [detectStep, hw]
      rw [hstep]
      have hblackk : cBlack c kv.1 := by
        have hsome : (dget c kv.1).isSome := (hdom kv.1).2 hkvk
        cases hd2 : dget c kv.1 with
        | none => rw [hd2] at hsome; cases hsome
        | some col =>
          cases col with
          | white => exact absurd hd2 hw
          | gray => exact absurd hd2 (hng kv.1)
          | black => exact hd2
      obtain ⟨hs2, hp2⟩ := ih c p hkeys_t hdom hinv hng
      refine ⟨hs2, ?_⟩
      intro hnone
      obtain ⟨h1, h2, h3, h4, h5⟩ := hp2 hnone
      refine ⟨h1, h2, h3, h4, ?_⟩
      intro kv2 hkv2
      rcases List.mem_cons.1 hkv2 with rfl | hm
      · exact h4 kv2.1 hblackk
      · exact h5 kv2 hm

theorem dget_init_color (g : List (String × List String)) :
    ∀ (init : ColorMap) (n : String),
      dget (g.foldl (fun c kv => dinsert c kv.1 Color.white) init) n
        = if n ∈ keysOf g then some Color.white else dget init n := by
  induction g with
  | nil => intro init n; simp [keysOf]
  | cons kv t ih =>
    intro init n
    simp only [List.foldl_cons]
    rw [ih]
    by_cases ht : n ∈ keysOf t
    · rw [if_pos ht, if_pos (by simp [keysOf]; right; simpa [keysOf] using ht)]
    · rw [if_neg ht]
      by_cases hk : kv.1 = n
      · subst hk
        rw [dget_dinsert_self, if_pos (by simp [keysOf])]
      · rw [dget_dinsert_other _ _ hk, if_neg ?_]
        intro hmem
        simp only [keysOf, List.map_cons, List.mem_cons] at hmem
        rcases hmem with h | h
        · exact hk h.symm
        · exact ht (by simpa [keysOf] using h)

/-- Soundness and completeness of `detect_cycle`: it reports a witness
exactly when the graph has a cycle. -/
theorem detect_cycle_none_iff (g : List (String × List String)) :
    detect_cycle g = none ↔ ¬ HasCycle g := by
  have hcol : ∀ n, dget (g.foldl (fun c kv => dinsert c kv.1 Color.white) []) n
      = if n ∈ keysOf g then some Color.white else none := by
    intro n
    rw [dget_init_color g [] n]
    rfl
  have hdom : cDom g (g.foldl (fun c kv => dinsert c kv.1 Color.white) []) := by
    intro n
    rw [hcol n]
    by_cases h : n ∈ keysOf g
    · simp [h]
    · simp [h]
  have hinv : BlackInv g (g.foldl (fun c kv => dinsert c kv.1 Color.white) []) := by
    refine ⟨fun _ => 0, ?_⟩
    intro u v hu
    exfalso
    rw [cBlack, hcol u] at hu
    by_cases h : u ∈ keysOf g
    · rw [if_pos h] at hu; cases hu
    · rw [if_neg h] at hu; cases hu
  have hng : ∀ k, ¬ cGray (g.foldl (fun c kv => dinsert c kv.1 Color.white) []) k := by
    intro k hk
    rw [cGray, hcol k] at hk
    by_cases h : k ∈ keysOf g
    · rw [if_pos h] at hk; cases hk
    · rw [if_neg h] at hk; cases hk
  obtain ⟨hs, hp⟩ := detect_fold_spec g g
    (g.foldl (fun c kv => dinsert c kv.1 Color.white) [])
    (g.foldl (fun p kv => dinsert p kv.1 (none : Option String)) [])
    (fun kv hkv => List.mem_map.2 ⟨kv, hkv, rfl⟩) hdom hinv hng
  constructor
  · intro hnone hcyc
    have hpost := hp hnone
    obtain ⟨_, h2, _, _, h5⟩ := hpost
    refine no_cycle_of_all_black ?_ h2 hcyc
    intro k hk
    obtain ⟨kv, hkv, hkeq⟩ := List.mem_map.1 hk
    rw [← hkeq]
    exact h5 kv hkv
  · intro hnc
    cases hd : detect_cycle g with
    | none => rfl
    | some cyc => exact absurd (hs cyc hd) hnc

/-! ## C6: behavior of `run` on cyclic notebooks -/

theorem dget_foldl_updState_not_mem (f : CellState → CellState)
    (cyc : List String) :
    ∀ (st : List (String × CellState)) (mid : String), mid ∉ cyc →
      dget (cyc.foldl (fun s c2 => updState s c2 f) st) mid = dget st mid := by
  induction cyc with
  | nil => intro st mid _; rfl
  | cons c rest ih =>
    intro st mid hmem
    simp only [List.foldl_cons]
    rw [ih _ mid (fun h => hmem (List.mem_cons_of_mem _ h))]
    rw [updState, dget_dupd,
      if_neg (fun h => hmem (by rw [← h]; exact List.mem_cons_self _ _))]

theorem dget_foldl_updCycleErr (msg : String) (cyc : List String) :
    ∀ (st : List (String × CellState)) (mid : String), mid ∈ cyc →
      ∀ stt, dget (cyc.foldl (fun s c2 => updState s c2 (updCycleErr msg)) st) mid
        = some stt →
      stt.status = CellStatus.error ∧ stt.error = some msg := by
  induction cyc with
  | nil => intro st mid hmem; cases hmem
  | cons c rest ih =>
    intro st mid hmem stt hget
    simp only [List.foldl_cons] at hget
    by_cases hr : mid ∈ rest
    · exact ih _ mid hr stt hget
    · rcases List.mem_cons.1 hmem with rfl | hr2
      · rw [dget_foldl_updState_not_mem _ _ _ mid hr] at hget
        rw [updState, dget_dupd, if_pos rfl] at hget
        cases hold : dget st mid with
        | none => rw [hold] at hget; cases hget
        | some st0 =>
          rw [hold] at hget
          cases hget
          exact ⟨rfl, rfl⟩
      · exact absurd hr2 hr

/-- `run_cell` in the circular-dependency branch: no execution, the
returned ids are the witness cycle, every witnessed state moves to
`error` with the standardized message. -/
theorem run_cell_on_cycle (r : ReactorState) (cid : String) (ex : Cell → ExecResult)
    (sqlo : Option (Cell → ExecResult)) (cyc : List String)
    (hdet : detect_cycle (build_dependency_graph r.cells) = some cyc) :
    run_cell r cid ex sqlo
      = (⟨r.cells,
          cyc.foldl
            (fun st c2 => updState st c2 (updCycleErr
              ("Circular dependency detected: " ++ String.intercalate " -> " cyc)))
            r.cell_states⟩,
         cyc, []) := by
  have hord : get_execution_order r.cells cid = ([], some cyc) := by
    simp only [get_execution_order]
    rw [hdet]
  unfold run_cell
  rw [hord]

/-- C6.  Whenever the dependency graph of the cell list has a cycle,
`detect_cycle` witnesses one, and `run` on any identifier transitions
every cell of the witnessed cycle to `error` with the standardized
message, dispatches nothing to the executors, and returns exactly the
witnessed states. -/
theorem cycle_detection_and_run (cells : List Cell)
    (states : List (String × CellState)) (cid : String) (ex : Cell → ExecResult)
    (sqlo : Option (Cell → ExecResult))
    (hcyc : HasCycle (build_dependency_graph cells)) :
    ∃ cyc, detect_cycle (build_dependency_graph cells) = some cyc ∧
      (run_cell ⟨cells, states⟩ cid ex sqlo).2.1 = cyc ∧
      (run_cell ⟨cells, states⟩ cid ex sqlo).2.2 = [] ∧
      (run_cell ⟨cells, states⟩ cid ex sqlo).1.cells = cells ∧
      (∀ mid ∈ cyc, ∀ stt,
        dget (run_cell ⟨cells, states⟩ cid ex sqlo).1.cell_states mid = some stt →
        stt.status = CellStatus.error ∧
        stt.error = some ("Circular dependency detected: "
          ++ String.intercalate " -> " cyc)) := by
  cases hdet : detect_cycle (build_dependency_graph cells) with
  | none => exact absurd hcyc ((detect_cycle_none_iff _).1 hdet)
  | some cyc =>
    refine ⟨cyc, rfl, ?_⟩
    have hrun := run_cell_on_cycle ⟨cells, states⟩ cid ex sqlo cyc hdet
    rw [hrun]
    refine ⟨rfl, rfl, rfl, ?_⟩
    intro mid hmid stt hget
    exact dget_foldl_updCycleErr _ cyc states mid hmid stt hget

theorem hasCycle_cyc2 : HasCycle (build_dependency_graph [cyca, cycb]) := by
  have e1 : DepEdge (build_dependency_graph [cyca, cycb]) "ca" "cb" := by
    unfold DepEdge
    decide
  have e2 : DepEdge (build_dependency_graph [cyca, cycb]) "cb" "ca" := by
    unfold DepEdge
    decide
  exact ⟨"ca", Relation.TransGen.tail (Relation.TransGen.single e1) e2⟩

/-- Witness for `cycle_detection_and_run` on the two-cell cycle. -/
theorem cycle_detection_and_run_witness :
    HasCycle (build_dependency_graph [cyca, cycb]) ∧
    (∃ cyc, detect_cycle (build_dependency_graph [cyca, cycb]) = some cyc ∧
      (run_cell ⟨[cyca, cycb], (set_cells initReactor [cyca, cycb]).cell_states⟩
        "ca" okOracle none).2.1 = cyc ∧
      (run_cell ⟨[cyca, cycb], (set_cells initReactor [cyca, cycb]).cell_states⟩
        "ca" okOracle none).2.2 = [] ∧
      (run_cell ⟨[cyca, cycb], (set_cells initReactor [cyca, cycb]).cell_states⟩
        "ca" okOracle none).1.cells = [cyca, cycb] ∧
      (∀ mid ∈ cyc, ∀ stt,
        dget (run_cell ⟨[cyca, cycb], (set_cells initReactor [cyca, cycb]).cell_states⟩
          "ca" okOracle none).1.cell_states mid = some stt →
        stt.status = CellStatus.error ∧
        stt.error = some ("Circular dependency detected: "
          ++ String.intercalate " -> " cyc))) :=
  ⟨hasCycle_cyc2,
   cycle_detection_and_run [cyca, cycb] (set_cells initReactor [cyca, cycb]).cell_states
     "ca" okOracle none hasCycle_cyc2⟩

/-! ## C8: `run` with an unknown identifier -/

theorem mem_keysOf_dinsert {κ α : Type} [DecidableEq κ] {d : List (κ × α)}
    {k a : κ} {v : α} (h : a ∈ (dinsert d k v).map Prod.fst) :
    a ∈ d.map Prod.fst ∨ a = k := by
  induction d with
  | nil =>
    simp only [dinsert, List.map_cons, List.map_nil, List.mem_singleton] at h
    exact Or.inr h
  | cons kv rest ih =>
    obtain ⟨k1, w⟩ := kv
    by_cases h1 : k1 = k
    · subst h1
      rw [dinsert, if_pos rfl] at h
      simp only [List.map_cons, List.mem_cons] at h ⊢
      tauto
    · rw [dinsert, if_neg h1] at h
      simp only [List.map_cons, List.mem_cons] at h ⊢
      rcases h with h | h
      · exact Or.inl (Or.inl h)
      · rcases ih h with h2 | h2
        · exact Or.inl (Or.inr h2)
        · exact Or.inr h2

theorem keysOf_build_subset (cells : List Cell) :
    ∀ k ∈ keysOf (build_dependency_graph cells), k ∈ cells.map (fun c => c.id) := by
  have main : ∀ (cs : List Cell)
      (step : List (String × List String) → Cell → List (String × List String)),
      (∀ g c, ∀ a ∈ keysOf (step g c), a ∈ keysOf g ∨ a = c.id) →
      ∀ (init : List (String × List String)) (k : String),
        k ∈ keysOf (cs.foldl step init) →
        k ∈ keysOf init ∨ k ∈ cs.map (fun c => c.id) := by
    intro cs step hstep
    induction cs with
    | nil => intro init k hk; exact Or.inl hk
    | cons c rest ih =>
      intro init k hk
      simp only [List.foldl_cons] at hk
      rcases ih (step init c) k hk with h | h
      · rcases hstep init c k h with h2 | h2
        · exact Or.inl h2
        · exact Or.inr (by simp [h2])
      · exact Or.inr (List.mem_cons_of_mem _ h)
  intro k hk
  unfold build_dependency_graph at hk
  have := main cells _ (fun g c a ha => mem_keysOf_dinsert ha) [] k hk
  rcases this with h | h
  · cases h
  · exact h

theorem keysOf_invert_subset (graph : List (String × List String)) :
    ∀ k ∈ keysOf (invertGraph graph), k ∈ keysOf graph := by
  have hds0 : ∀ k ∈ keysOf (graph.foldl
      (fun d kv => dinsert d kv.1 ([] : List String)) []), k ∈ keysOf graph := by
    have main : ∀ (gs : List (String × List String))
        (init : List (String × List String)) (k : String),
        k ∈ keysOf (gs.foldl (fun d kv => dinsert d kv.1 ([] : List String)) init) →
        k ∈ keysOf init ∨ k ∈ keysOf gs := by
      intro gs
      induction gs with
      | nil => intro init k hk; exact Or.inl hk
      | cons kv rest ih =>
        intro init k hk
        simp only [List.foldl_cons] at hk
        rcases ih _ k hk with h | h
        · rcases mem_keysOf_dinsert h with h2 | h2
          · exact Or.inl h2
          · exact Or.inr (by simp [keysOf, h2])
        · exact Or.inr (by simp only [keysOf, List.map_cons, List.mem_cons]; right; exact h)
    intro k hk
    rcases main graph [] k hk with h | h
    · cases h
    · exact h
  have hinner : ∀ (deps : List String) (cid : String)
      (d2 : List (String × List String)) (k : String),
      k ∈ keysOf (deps.foldl
        (fun d2 dep =>
          match dget d2 dep with
          | some cur => dinsert d2 dep (insertS cur cid)
          | none => d2) d2) →
      k ∈ keysOf d2 := by
    intro deps
    induction deps with
    | nil => intro cid d2 k hk; exact hk
    | cons dep rest ih =>
      intro cid d2 k hk
      simp only [List.foldl_cons] at hk
      cases hd : dget d2 dep with
      | none =>
        rw [hd] at hk
        exact ih cid d2 k hk
      | some cur =>
        rw [hd] at hk
        have := ih cid _ k hk
        rcases mem_keysOf_dinsert this with h | h
        · exact h
        · rw [h]
          exact mem_keys_of_dget_some hd
  have main2 : ∀ (gs : List (String × List String))
      (d : List (String × List String)) (k : String),
      k ∈ keysOf (gs.foldl
        (fun d kv => kv.2.foldl
          (fun d2 dep =>
            match dget d2 dep with
            | some cur => dinsert d2 dep (insertS cur kv.1)
            | none => d2) d) d) →
      k ∈ keysOf d := by
    intro gs
    induction gs with
    | nil => intro d k hk; exact hk
    | cons kv rest ih =>
      intro d k hk
      simp only [List.foldl_cons] at hk
      exact hinner kv.2 kv.1 d k (ih _ k hk)
  intro k hk
  unfold invertGraph at hk
  exact hds0 k (main2 graph _ k hk)

/-- C8 amended.  For every cell list whose dependency graph is acyclic
and every identifier not in the list, `run` returns the empty result
list, dispatches nothing, and leaves the reactor state untouched.  (On
a cyclic cell list, `run` with an unknown identifier instead reports
the cycle, as the counterexample shows.) -/
theorem unknown_id_run_noop (r : ReactorState) (ex : Cell → ExecResult)
    (sqlo : Option (Cell → ExecResult)) (cid : String)
    (hacyc : ¬ HasCycle (build_dependency_graph r.cells))
    (hid : cid ∉ r.cells.map (fun c => c.id)) :
    run_cell r cid ex sqlo = (r, [], []) := by
  have hdet : detect_cycle (build_dependency_graph r.cells) = none :=
    (detect_cycle_none_iff _).2 hacyc
  have hknot : cid ∉ keysOf (build_dependency_graph r.cells) :=
    fun h => hid (keysOf_build_subset r.cells cid h)
  have hq0 : dgetD (invertGraph (build_dependency_graph r.cells)) cid [] = [] := by
    unfold dgetD
    rw [dget_eq_none_iff.2
      (fun h => hknot (keysOf_invert_subset (build_dependency_graph r.cells) cid h))]
    rfl
  have hbfs : ∀ fuel, bfsGo (invertGraph (build_dependency_graph r.cells)) fuel [] []
      = [] := by
    intro fuel
    cases fuel with
    | zero => rfl
    | succ n => rfl
  have hds : get_downstream_cells (build_dependency_graph r.cells) cid = [] := by
    simp only [get_downstream_cells]
    rw [hq0]
    exact hbfs _
  have hsub : (build_dependency_graph r.cells).foldl
      (fun sg kv =>
        if kv.1 ∈ [cid] then dinsert sg kv.1 (kv.2.filter (fun d => d ∈ [cid]))
        else sg) [] = [] := by
    have main : ∀ (gs : List (String × List String)),
        (∀ kv ∈ gs, kv.1 ≠ cid) →
        gs.foldl (fun sg kv =>
          if kv.1 ∈ [cid] then dinsert sg kv.1 (kv.2.filter (fun d => d ∈ [cid]))
          else sg) [] = [] := by
      intro gs
      induction gs with
      | nil => intro _; rfl
      | cons kv rest ih =>
        intro hne
        simp only [List.foldl_cons]
        rw [if_neg ?_]
        · exact ih (fun kv2 h => hne kv2 (List.mem_cons_of_mem _ h))
        · intro hmem
          exact hne kv (List.mem_cons_self _ _) (List.mem_singleton.1 hmem)
    refine main _ ?_
    intro kv hkv hkc
    exact hknot (by rw [← hkc]; exact List.mem_map.2 ⟨kv, hkv, rfl⟩)
  have htopo : topological_sort (build_dependency_graph r.cells) [cid] = [cid] := by
    simp only [topological_sort]
    rw [hsub]
    rfl
  have hins : insertS [] cid = [cid] := by simp [insertS]
  have hstep2 : get_execution_order r.cells cid
      = (topological_sort (build_dependency_graph r.cells)
          (insertS (get_downstream_cells (build_dependency_graph r.cells) cid) cid),
         none) := by
    simp only [get_execution_order]
    rw [hdet]
  have hord : get_execution_order r.cells cid = ([cid], none) := by
    rw [hstep2, hds, hins, htopo]
  unfold run_cell
  rw [hord]
  have hfind : find_cell_by_id r.cells cid = none := by
    unfold find_cell_by_id
    rw [List.find?_eq_none]
    intro c hc hcid
    exact hid (List.mem_map.2 ⟨c, hc, by simpa using hcid⟩)
  simp only [List.foldl_cons, List.foldl_nil, runStep, hfind]

/-- Witness for `unknown_id_run_noop` on a one-cell acyclic notebook. -/
theorem unknown_id_run_noop_witness :
    (¬ HasCycle (build_dependency_graph (set_cells initReactor [cd1]).cells)) ∧
    ("zz" ∉ (set_cells initReactor [cd1]).cells.map (fun c => c.id)) ∧
    run_cell (set_cells initReactor [cd1]) "zz" okOracle none
      = (set_cells initReactor [cd1], [], []) := by
  have hempty : ∀ u v, ¬ DepEdge (build_dependency_graph [cd1]) u v := by
    intro u v h
    unfold DepEdge at h
    rw [show build_dependency_graph [cd1] = [("c1", [])] from by decide] at h
    unfold dgetD at h
    by_cases hu : ("c1" : String) = u
    · simp [dget, hu] at h
    · simp [dget, hu] at h
  have hnc : ¬ HasCycle (build_dependency_graph (set_cells initReactor [cd1]).cells) := by
    rintro ⟨n, htg⟩
    exact transGen_of_empty hempty htg
  exact ⟨hnc, by decide,
    unknown_id_run_noop (set_cells initReactor [cd1]) okOracle none "zz" hnc (by decide)⟩

/-- C8 counterexample.  On the cyclic notebook `ca ↔ cb`, `run` with
the unknown identifier `zz` does not return the empty list: it reports
the cycle and mutates both cell states to `error`. -/
theorem unknown_id_run_changes_state_on_cycle :
    "zz" ∉ [cyca, cycb].map (fun c => c.id) ∧
    (run_cell (set_cells initReactor [cyca, cycb]) "zz" okOracle none).2.1
      = ["ca", "cb"] ∧
    (dget (run_cell (set_cells initReactor [cyca, cycb]) "zz" okOracle none).1.cell_states
        "ca").map (fun st => st.status) = some CellStatus.error := by
  refine ⟨by decide, by decide, by decide⟩

/-! ## C9: list and string toolbox for the notebook-text round trip -/

theorem mem_splitOnP_not {α : Type} {q : α → Bool} :
    ∀ (l : List α) (p : List α), p ∈ l.splitOnP q → ∀ a ∈ p, q a = false := by
  intro l
  induction l with
  | nil =>
    intro p hp a ha
    rw [List.splitOnP_nil] at hp
    rcases List.mem_singleton.1 hp with rfl
    cases ha
  | cons x t ih =>
    intro p hp a ha
    rw [List.splitOnP_cons] at hp
    by_cases hq : q x
    · rw [if_pos hq] at hp
      rcases List.mem_cons.1 hp with rfl | hp2
      · cases ha
      · exact ih p hp2 a ha
    · rw [if_neg hq] at hp
      cases hsp : t.splitOnP q with
      | nil => exact absurd hsp (List.splitOnP_ne_nil q t)
      | cons hd tl =>
        rw [hsp] at hp
        rcases List.mem_cons.1 hp with rfl | hp2
        · rcases List.mem_cons.1 ha with rfl | ha2
          · simpa using hq
          · exact ih hd (by rw [hsp]; exact List.mem_cons_self _ _) a ha2
        · exact ih p (by rw [hsp]; exact List.mem_cons_of_mem _ hp2) a ha

theorem mem_of_mem_splitOnP {α : Type} {q : α → Bool} :
    ∀ (l : List α) (p : List α), p ∈ l.splitOnP q → ∀ a ∈ p, a ∈ l := by
  intro l
  induction l with
  | nil =>
    intro p hp a ha
    rw [List.splitOnP_nil] at hp
    rcases List.mem_singleton.1 hp with rfl
    cases ha
  | cons x t ih =>
    intro p hp a ha
    rw [List.splitOnP_cons] at hp
    by_cases hq : q x
    · rw [if_pos hq] at hp
      rcases List.mem_cons.1 hp with rfl | hp2
      · cases ha
      · exact List.mem_cons_of_mem _ (ih p hp2 a ha)
    · rw [if_neg hq] at hp
      cases hsp : t.splitOnP q with
      | nil => exact absurd hsp (List.splitOnP_ne_nil q t)
      | cons hd tl =>
        rw [hsp] at hp
        rcases List.mem_cons.1 hp with rfl | hp2
        · rcases List.mem_cons.1 ha with rfl | ha2
          · exact List.mem_cons_self _ _
          · exact List.mem_cons_of_mem _
              (ih hd (by rw [hsp]; exact List.mem_cons_self _ _) a ha2)
        · exact List.mem_cons_of_mem _
            (ih p (by rw [hsp]; exact List.mem_cons_of_mem _ hp2) a ha)

theorem mem_splitOn_not_sep {α : Type} [DecidableEq α] {x : α} {l p : List α}
    (hp : p ∈ l.splitOn x) : x ∉ p := by
  intro hx
  have := mem_splitOnP_not l p hp x hx
  simp at this

theorem mem_of_mem_splitOn {α : Type} [DecidableEq α] {x : α} {l p : List α}
    {a : α} (hp : p ∈ l.splitOn x) (ha : a ∈ p) : a ∈ l :=
  mem_of_mem_splitOnP l p hp a ha

theorem takeWhile_append_all {α : Type} {q : α → Bool} :
    ∀ (x y : List α), (∀ a ∈ x, q a = true) →
      (x ++ y).takeWhile q = x ++ y.takeWhile q := by
  intro x
  induction x with
  | nil => intro y _; rfl
  | cons a t ih =>
    intro y hall
    rw [List.cons_append, List.takeWhile_cons,
      if_pos (hall a (List.mem_cons_self _ _)), ih y
        (fun b hb => hall b (List.mem_cons_of_mem _ hb))]
    rfl

theorem dropWhile_append_all {α : Type} {q : α → Bool} :
    ∀ (x y : List α), (∀ a ∈ x, q a = true) →
      (x ++ y).dropWhile q = y.dropWhile q := by
  intro x
  induction x with
  | nil => intro y _; rfl
  | cons a t ih =>
    intro y hall
    rw [List.cons_append, List.dropWhile_cons,
      if_pos (hall a (List.mem_cons_self _ _))]
    exact ih y (fun b hb => hall b (List.mem_cons_of_mem _ hb))

theorem takeWhile_cons_false {α : Type} {q : α → Bool} (a : α) (t : List α)
    (h : q a = false) : (a :: t).takeWhile q = [] := by
  rw [List.takeWhile_cons, if_neg (by simp [h])]

theorem dropWhile_cons_false {α : Type} {q : α → Bool} (a : α) (t : List α)
    (h : q a = false) : (a :: t).dropWhile q = a :: t := by
  rw [List.dropWhile_cons, if_neg (by simp [h])]

theorem dropLit_append : ∀ (pre rest : Str), dropLit pre (pre ++ rest) = some rest := by
  intro pre
  induction pre with
  | nil => intro rest; rfl
  | cons c t ih =>
    intro rest
    rw [List.cons_append]
    show (if c = c then dropLit t (t ++ rest) else none) = some rest
    rw [if_pos rfl]
    exact ih rest

theorem mem_of_dropLit : ∀ (pre l rest : Str), dropLit pre l = some rest →
    ∀ a ∈ rest, a ∈ l := by
  intro pre
  induction pre with
  | nil =>
    intro l rest h a ha
    cases h
    exact ha
  | cons c t ih =>
    intro l rest h a ha
    match l with
    | [] => cases h
    | d :: ds =>
      show a ∈ d :: ds
      by_cases hd : d = c
      · rw [show dropLit (c :: t) (d :: ds) = if d = c then dropLit t ds else none
            from rfl, if_pos hd] at h
        exact List.mem_cons_of_mem _ (ih ds rest h a ha)
      · rw [show dropLit (c :: t) (d :: ds) = if d = c then dropLit t ds else none
            from rfl, if_neg hd] at h
        cases h

theorem intercalate_singleton {α : Type} (sep : List α) (x : List α) :
    List.intercalate sep [x] = x := by
  simp [List.intercalate]

theorem intercalate_cons_cons {α : Type} (sep : List α) (a b : List α)
    (t : List (List α)) :
    List.intercalate sep (a :: b :: t) = a ++ sep ++ List.intercalate sep (b :: t) := by
  simp [List.intercalate, List.intersperse_cons_cons]

theorem intercalate_append_parts {α : Type} (sep : List α) :
    ∀ (A B : List (List α)), A ≠ [] → B ≠ [] →
      List.intercalate sep (A ++ B)
        = List.intercalate sep A ++ sep ++ List.intercalate sep B := by
  intro A
  induction A with
  | nil => intro B hA _; exact absurd rfl hA
  | cons a A' ih =>
    intro B hA hB
    match A' with
    | [] =>
      match B with
      | [] => exact absurd rfl hB
      | b :: t =>
        rw [List.singleton_append, intercalate_cons_cons, intercalate_singleton]
    | a2 :: A2 =>
      rw [List.cons_append, List.cons_append, intercalate_cons_cons,
        ← List.cons_append, ih B (by simp) hB, intercalate_cons_cons]
      simp [List.append_assoc]

theorem intercalate_concat_piece {α : Type} (sep : List α) (L : List (List α))
    (x : List α) (hL : L ≠ []) :
    List.intercalate sep (L ++ [x]) = List.intercalate sep L ++ sep ++ x := by
  rw [intercalate_append_parts sep L [x] hL (by simp), intercalate_singleton]

theorem mem_intercalate {α : Type} {sep : List α} {a : α} :
    ∀ (ls : List (List α)), a ∈ List.intercalate sep ls →
      a ∈ sep ∨ ∃ l ∈ ls, a ∈ l := by
  intro ls
  induction ls with
  | nil =>
    intro h
    simp [List.intercalate] at h
  | cons x t ih =>
    intro h
    match t with
    | [] =>
      rw [intercalate_singleton] at h
      exact Or.inr ⟨x, List.mem_singleton.2 rfl, h⟩
    | y :: t2 =>
      rw [intercalate_cons_cons] at h
      rcases List.mem_append.1 h with h2 | h2
      · rcases List.mem_append.1 h2 with h3 | h3
        · exact Or.inr ⟨x, List.mem_cons_self _ _, h3⟩
        · exact Or.inl h3
      · rcases ih h2 with h3 | ⟨l, hl, hal⟩
        · exact Or.inl h3
        · exact Or.inr ⟨l, List.mem_cons_of_mem _ hl, hal⟩

theorem intercalate_head_ne_nil {α : Type} (sep : List α) (p : List α)
    (rest : List (List α)) (hp : p ≠ []) :
    List.intercalate sep (p :: rest) ≠ [] := by
  match rest with
  | [] =>
    rw [intercalate_singleton]
    exact hp
  | b :: t =>
    rw [intercalate_cons_cons]
    intro h
    rw [List.append_assoc] at h
    rcases List.append_eq_nil.1 h with ⟨h1, _⟩
    exact hp h1

theorem head_dropWhile {α : Type} {q : α → Bool} :
    ∀ (l : List α) (c : α) (t : List α), l.dropWhile q = c :: t → q c = false := by
  intro l
  induction l with
  | nil => intro c t h; cases h
  | cons a l' ih =>
    intro c t h
    rw [List.dropWhile_cons] at h
    by_cases hq : q a = true
    · rw [if_pos hq] at h
      exact ih c t h
    · rw [if_neg hq] at h
      cases h
      simpa using hq

theorem dropWhile_idem {α : Type} (q : α → Bool) (l : List α) :
    (l.dropWhile q).dropWhile q = l.dropWhile q := by
  cases hd : l.dropWhile q with
  | nil => rfl
  | cons c t => rw [dropWhile_cons_false c t (head_dropWhile l c t hd)]

theorem pyStrip_of_stripped {s : Str} (h : Stripped s) : pyStrip s = s := by
  rw [pyStrip, h.1, h.2, List.reverse_reverse]

theorem stripped_of_pyStrip {s : Str} (h : pyStrip s = s) : Stripped s := by
  have hlen1 : ∀ (l : List Char), (l.dropWhile pyWs).length ≤ l.length :=
    fun l => (List.dropWhile_suffix pyWs).length_le
  have hlen : s.length ≤ ((s.dropWhile pyWs).reverse.dropWhile pyWs).length := by
    have := congrArg List.length h
    rw [pyStrip, List.length_reverse] at this
    omega
  have h1 : (s.dropWhile pyWs).length = s.length := by
    have ha := hlen1 s
    have hb := hlen1 (s.dropWhile pyWs).reverse
    rw [List.length_reverse] at hb
    omega
  have h2 : s.dropWhile pyWs = s :=
    (List.dropWhile_suffix pyWs).eq_of_length h1
  refine ⟨h2, ?_⟩
  rw [pyStrip, h2] at h
  have h3 := congrArg List.reverse h
  rw [List.reverse_reverse] at h3
  exact h3

theorem stripped_pyStrip (s : Str) : Stripped (pyStrip s) := by
  constructor
  · cases hd : pyStrip s with
    | nil => rfl
    | cons c t =>
      refine dropWhile_cons_false c t ?_
      have hsuf : (s.dropWhile pyWs).reverse.dropWhile pyWs <:+ (s.dropWhile pyWs).reverse :=
        List.dropWhile_suffix pyWs
      have hpre : ((s.dropWhile pyWs).reverse.dropWhile pyWs).reverse
          <+: ((s.dropWhile pyWs).reverse).reverse := List.reverse_prefix.2 hsuf
      rw [List.reverse_reverse] at hpre
      rw [pyStrip] at hd
      rw [hd] at hpre
      obtain ⟨t2, ht2⟩ := hpre
      rw [List.cons_append] at ht2
      exact head_dropWhile s c (t ++ t2) ht2.symm
  · rw [pyStrip, List.reverse_reverse]
    exact dropWhile_idem pyWs _

theorem pyStrip_idem (s : Str) : pyStrip (pyStrip s) = pyStrip s :=
  pyStrip_of_stripped (stripped_pyStrip s)

theorem mem_pyStrip {s : Str} {a : Char} (h : a ∈ pyStrip s) : a ∈ s := by
  rw [pyStrip] at h
  rw [List.mem_reverse] at h
  have h2 := (List.dropWhile_suffix pyWs).mem h
  rw [List.mem_reverse] at h2
  exact (List.dropWhile_suffix pyWs).mem h2

theorem pyStrip_cons_ws {c : Char} (hc : pyWs c = true) (s : Str) :
    pyStrip (c :: s) = pyStrip s := by
  rw [pyStrip, pyStrip, List.dropWhile_cons, if_pos (by simp [hc])]

theorem pyStrip_append_newline {s : Str} (h : pyStrip s = s) :
    pyStrip (s ++ ['\n']) = s := by
  obtain ⟨h1, h2⟩ := stripped_of_pyStrip h
  rcases s with _ | ⟨c, t⟩
  · rfl
  · have hc : pyWs c = false := by
      rw [List.dropWhile_cons] at h1
      by_cases hq : pyWs c = true
      · rw [if_pos hq] at h1
        have hlen := congrArg List.length h1
        have hl := (List.dropWhile_suffix (l := t) pyWs).length_le
        simp at hlen
        omega
      · simpa using hq
    rw [pyStrip]
    rw [show ((c :: t) ++ ['\n']).dropWhile pyWs = (c :: t) ++ ['\n'] from by
      rw [List.cons_append, List.dropWhile_cons, if_neg (by simp [hc])]]
    rw [List.reverse_append]
    rw [show (['\n'] : Str).reverse = ['\n'] from rfl]
    rw [dropWhile_append_all ['\n'] _
      (by intro a ha; rcases List.mem_singleton.1 ha with rfl; rfl)]
    rw [h2, List.reverse_reverse]

theorem mem_dinsert {κ α : Type} [DecidableEq κ] {d : List (κ × α)} {k : κ}
    {v : α} {kv : κ × α} (h : kv ∈ dinsert d k v) : kv ∈ d ∨ kv = (k, v) := by
  induction d with
  | nil =>
    rw [dinsert] at h
    rcases List.mem_singleton.1 h with rfl
    exact Or.inr rfl
  | cons kv1 rest ih =>
    obtain ⟨k1, w⟩ := kv1
    by_cases h1 : k1 = k
    · subst h1
      rw [dinsert, if_pos rfl] at h
      rcases List.mem_cons.1 h with rfl | h2
      · exact Or.inr rfl
      · exact Or.inl (List.mem_cons_of_mem _ h2)
    · rw [dinsert, if_neg h1] at h
      rcases List.mem_cons.1 h with rfl | h2
      · exact Or.inl (List.mem_cons_self _ _)
      · rcases ih h2 with h3 | h3
        · exact Or.inl (List.mem_cons_of_mem _ h3)
        · exact Or.inr h3

/-- Every value held by the dict `parse_marker` builds is well formed,
provided the bracket content has no newline and no closing bracket. -/
theorem parse_marker_wf {content : Str} (hn : ('\n' : Char) ∉ content)
    (hb : (']' : Char) ∉ content) :
    ∀ kv ∈ parse_marker content, WfVal kv.2 := by
  have main : ∀ (parts : List Str) (acc : List (Str × Str)),
      (∀ p ∈ parts, p ∈ content.splitOn ',') →
      (∀ kv ∈ acc, WfVal kv.2) →
      ∀ kv ∈ parts.foldl parseMarkerStep acc, WfVal kv.2 := by
    intro parts
    induction parts with
    | nil => intro acc _ hacc kv hkv; exact hacc kv hkv
    | cons part rest ih =>
      intro acc hparts hacc kv hkv
      simp only [List.foldl_cons] at hkv
      refine ih _ (fun p hp => hparts p (List.mem_cons_of_mem _ hp)) ?_ kv hkv
      intro kv2 hkv2
      simp only [parseMarkerStep] at hkv2
      by_cases hcol : (':' : Char) ∈ pyStrip part
      · rw [if_pos hcol] at hkv2
        rcases mem_dinsert hkv2 with h2 | h2
        · exact hacc kv2 h2
        · rw [h2]
          have hchain : ∀ a : Char,
              a ∈ pyStrip ((pyStrip part).dropWhile (fun c => c ≠ ':') |>.drop 1) →
              a ∈ content := by
            intro a ha
            have h3 := mem_pyStrip ha
            have h4 := (List.drop_suffix 1 _).mem h3
            have h5 := (List.dropWhile_suffix _).mem h4
            have h6 := mem_pyStrip h5
            exact mem_of_mem_splitOn (hparts part (List.mem_cons_self _ _)) h6
          refine ⟨pyStrip_idem _, ?_, ?_, ?_⟩
          · intro hmem
            exact hb (hchain _ hmem)
          · intro hmem
            have h3 := mem_pyStrip hmem
            have h4 := (List.drop_suffix 1 _).mem h3
            have h5 := (List.dropWhile_suffix _).mem h4
            have h6 := mem_pyStrip h5
            exact mem_splitOn_not_sep (hparts part (List.mem_cons_self _ _)) h6
          · intro hmem
            exact hn (hchain _ hmem)
      · rw [if_neg hcol] at hkv2
        exact hacc kv2 hkv2
  intro kv hkv
  unfold parse_marker at hkv
  exact main (content.splitOn ',') [] (fun p hp => hp) (fun kv2 h => by cases h) kv hkv

/-- Inversion of a successful marker match: the content is the nonempty
bracket body, free of `]`, drawn from the line's characters. -/
theorem markerMatch_inv {line content : Str} (h : markerMatch line = some content) :
    ((']' : Char) ∉ content) ∧ (∀ a ∈ content, a ∈ line) ∧ content ≠ [] := by
  unfold markerMatch at h
  split at h
  · cases h
  · rename_i rest hdl
    split at h
    · rename_i rest2 hdw
      have hrest2 : ∀ a ∈ rest2, a ∈ line := by
        intro a ha
        have h1 : a ∈ rest.dropWhile pyWs := by
          rw [hdw]; exact List.mem_cons_of_mem _ ha
        exact mem_of_dropLit _ _ _ hdl a ((List.dropWhile_suffix pyWs).mem h1)
      split at h
      · split at h
        · rename_i hcond
          cases h
          refine ⟨?_, ?_, hcond.1⟩
          · intro hmem
            have := List.mem_takeWhile_imp hmem
            simp at this
          · intro a ha
            exact hrest2 a ((List.takeWhile_prefix _).mem ha)
        · cases h
      · cases h
    · cases h

theorem wfVal_python : WfVal (lit "python") := by decide

/-- The header read off a well-formed marker line is well formed. -/
theorem hdrOfMarker_wf (gen : Nat → Str) (hgen : ∀ n, WfVal (gen n))
    {line content : Str} (hnl : ('\n' : Char) ∉ line)
    (hm : markerMatch line = some content) (k : Nat) :
    WfHdr (some (hdrOfMarker gen content k).1) := by
  obtain ⟨hb, hsub, _⟩ := markerMatch_inv hm
  have hn : ('\n' : Char) ∉ content := fun hmem => hnl (hsub _ hmem)
  have hwf := parse_marker_wf hn hb
  have hty : WfVal ((dget (parse_marker content) (lit "type")).getD (lit "python")) := by
    cases hty2 : dget (parse_marker content) (lit "type") with
    | none => exact wfVal_python
    | some t => exact hwf _ (dget_mem hty2)
  have has : ∀ v, dget (parse_marker content) (lit "as") = some v → WfVal v :=
    fun v hv => hwf _ (dget_mem hv)
  cases hid : dget (parse_marker content) (lit "id") with
  | some v =>
    have heq : hdrOfMarker gen content k
        = ((v, (dget (parse_marker content) (lit "type")).getD (lit "python"),
            dget (parse_marker content) (lit "as")), k) := by
      simp only [hdrOfMarker]
      rw [hid]
    rw [heq]
    exact ⟨hwf _ (dget_mem hid), hty, has⟩
  | none =>
    have heq : hdrOfMarker gen content k
        = ((gen k, (dget (parse_marker content) (lit "type")).getD (lit "python"),
            dget (parse_marker content) (lit "as")), k + 1) := by
      simp only [hdrOfMarker]
      rw [hid]
    rw [heq]
    exact ⟨hgen k, hty, has⟩

/-- Unfolding equation of `parseLines` on a line. -/
theorem parseLines_cons (gen : Nat → Str) (line : Str) (rest : List Str)
    (cur : Option (Str × Str × Option Str)) (acc : List Str) (k : Nat) :
    parseLines gen (line :: rest) cur acc k
      = match markerMatch line with
        | some content =>
          flushCur cur acc
            ++ parseLines gen rest (some (hdrOfMarker gen content k).1) []
                (hdrOfMarker gen content k).2
        | none =>
          match cur with
          | none => parseLines gen rest none acc k
          | some c1 => parseLines gen rest (some c1) (acc ++ [line]) k := by
  cases cur <;> rfl

/-- Every cell produced by the line scan is well formed. -/
theorem parseLines_wf (gen : Nat → Str) (hgen : ∀ n, WfVal (gen n)) :
    ∀ (ls : List Str) (cur : Option (Str × Str × Option Str)) (acc : List Str)
      (k : Nat),
      (∀ l ∈ ls, ('\n' : Char) ∉ l) → WfHdr cur →
      ∀ c ∈ parseLines gen ls cur acc k, WfCell c := by
  intro ls
  induction ls with
  | nil =>
    intro cur acc k _ hcur c hc
    match cur with
    | none => cases hc
    | some h =>
      rcases List.mem_singleton.1 hc with rfl
      obtain ⟨hi, ht, ha⟩ := hcur
      exact ⟨hi, ht, ha, pyStrip_idem _⟩
  | cons line rest ih =>
    intro cur acc k hnl hcur c hc
    have hnl_line : ('\n' : Char) ∉ line := hnl line (List.mem_cons_self _ _)
    have hnl_rest : ∀ l ∈ rest, ('\n' : Char) ∉ l :=
      fun l hl => hnl l (List.mem_cons_of_mem _ hl)
    rw [parseLines_cons] at hc
    split at hc
    · rename_i content hm
      rcases List.mem_append.1 hc with h2 | h2
      · unfold flushCur at h2
        match cur, hcur with
        | none, _ => cases h2
        | some h0, hcur =>
          rcases List.mem_singleton.1 h2 with rfl
          obtain ⟨hi, ht, ha⟩ := hcur
          exact ⟨hi, ht, ha, pyStrip_idem _⟩
      · exact ih _ [] _ hnl_rest (hdrOfMarker_wf gen hgen hnl_line hm k) c h2
    · match cur, hcur, hc with
      | none, _, hc => exact ih none acc k hnl_rest (by trivial) c hc
      | some c0, hcur, hc =>
        exact ih (some c0) (acc ++ [line]) k hnl_rest hcur c hc

/-- Every cell `parse_notebook` returns is well formed. -/
theorem parse_notebook_wf (content : Str) (gen : Nat → Str)
    (hgen : ∀ n, WfVal (gen n)) :
    ∀ c ∈ parse_notebook content gen, WfCell c := by
  intro c hc
  refine parseLines_wf gen hgen _ none [] 0 ?_ trivial c hc
  intro l hl
  exact mem_splitOn_not_sep hl

theorem splitOn_ne_nil {α : Type} [DecidableEq α] (x : α) (l : List α) :
    l.splitOn x ≠ [] := List.splitOnP_ne_nil _ l

/-- One serialized cell with its trailing newline, as a joined line
block. -/
theorem serialize_cell_block (c : PCell) :
    serialize_cell c ++ ['\n']
      = List.intercalate ['\n'] (markerLineOf c :: (c.code.splitOn '\n' ++ [[]])) := by
  cases hs : c.code.splitOn '\n' with
  | nil => exact absurd hs (splitOn_ne_nil _ _)
  | cons l0 L =>
    rw [List.cons_append, intercalate_cons_cons]
    have h1 : List.intercalate ['\n'] (l0 :: (L ++ [[]]))
        = List.intercalate ['\n'] (l0 :: L) ++ ['\n'] := by
      rw [show l0 :: (L ++ [[]]) = (l0 :: L) ++ [[]] from (List.cons_append _ _ _).symm]
      rw [intercalate_concat_piece _ _ _ (by simp), List.append_nil]
    rw [h1]
    have h2 : List.intercalate ['\n'] (l0 :: L) = c.code := by
      rw [← hs]
      exact List.intercalate_splitOn c.code '\n'
    rw [h2, serialize_cell]
    simp [List.append_assoc]

theorem serLines_ne_nil (c : PCell) (rest : List PCell) :
    serLines (c :: rest) ≠ [] := by
  unfold serLines
  simp

/-- The serialized notebook is its line list joined by newlines. -/
theorem serialize_eq_intercalate :
    ∀ (cells : List PCell), cells ≠ [] →
      serialize_notebook cells = List.intercalate ['\n'] (serLines cells) := by
  intro cells
  induction cells with
  | nil => intro h; exact absurd rfl h
  | cons c rest ih =>
    intro _
    match rest with
    | [] =>
      rw [serialize_notebook]
      rw [if_neg (by simp)]
      rw [List.map_cons, List.map_nil, intercalate_singleton]
      rw [show serLines [c] = markerLineOf c :: (c.code.splitOn '\n' ++ [[]]) from by
        unfold serLines; simp]
      exact serialize_cell_block c
    | c2 :: t =>
      have hlit : lit "\n\n" = ['\n', '\n'] := rfl
      have hser : serialize_notebook (c :: c2 :: t)
          = serialize_cell c ++ '\n' :: '\n' :: serialize_notebook (c2 :: t) := by
        rw [serialize_notebook, if_neg (by simp)]
        rw [show serialize_notebook (c2 :: t)
            = List.intercalate (lit "\n\n") (List.map serialize_cell (c2 :: t)) ++ ['\n']
          from by rw [serialize_notebook, if_neg (by simp)]]
        rw [List.map_cons, List.map_cons, intercalate_cons_cons]
        simp [hlit, List.append_assoc]
      rw [hser, ih (by simp)]
      have hsl : serLines (c :: c2 :: t)
          = (markerLineOf c :: (c.code.splitOn '\n' ++ [[]])) ++ serLines (c2 :: t) := by
        unfold serLines
        simp
      rw [hsl]
      rw [intercalate_append_parts _ _ _ (by simp) (serLines_ne_nil c2 t)]
      rw [← serialize_cell_block c]
      simp [List.append_assoc]

/-- No line of a well-formed serialized notebook contains a newline. -/
theorem serLines_no_newline (cells : List PCell) (hwf : ∀ c ∈ cells, WfCell c) :
    ∀ l ∈ serLines cells, ('\n' : Char) ∉ l := by
  intro l hl hnl
  unfold serLines at hl
  rw [List.mem_flatten] at hl
  obtain ⟨block, hblock, hlb⟩ := hl
  rw [List.mem_map] at hblock
  obtain ⟨c, hc, hceq⟩ := hblock
  obtain ⟨hid, hty, has, _⟩ := hwf c hc
  rw [← hceq] at hlb
  rcases List.mem_cons.1 hlb with rfl | h2
  · -- the marker line
    unfold markerLineOf at hnl
    rcases List.mem_append.1 hnl with h3 | h3
    · rcases List.mem_append.1 h3 with h4 | h4
      · revert h4; decide
      · rcases mem_intercalate _ h4 with h5 | ⟨part, hpart, h5⟩
        · revert h5; decide
        · unfold markerParts at hpart
          rcases List.mem_append.1 hpart with h6 | h6
          · rcases List.mem_append.1 h6 with h7 | h7
            · rcases List.mem_singleton.1 h7 with rfl
              rcases List.mem_append.1 h5 with h8 | h8
              · revert h8; decide
              · exact hid.2.2.2 h8
            · by_cases hne : c.cell_type ≠ lit "python"
              · rw [if_pos hne] at h7
                rcases List.mem_singleton.1 h7 with rfl
                rcases List.mem_append.1 h5 with h8 | h8
                · revert h8; decide
                · exact hty.2.2.2 h8
              · rw [if_neg hne] at h7
                cases h7
          · by_cases htr : asTruthy c.as_var
            · rw [if_pos htr] at h6
              rcases List.mem_singleton.1 h6 with rfl
              rcases List.mem_append.1 h5 with h8 | h8
              · revert h8; decide
              · cases hv : c.as_var with
                | none => rw [hv] at htr; cases htr
                | some v =>
                  have := has v hv
                  rw [hv] at h8
                  exact this.2.2.2 h8
            · rw [if_neg htr] at h6
              cases h6
    · revert h3; decide
  · rcases List.mem_append.1 h2 with h3 | h3
    · exact mem_splitOn_not_sep h3 hnl
    · rcases List.mem_singleton.1 h3 with rfl
      cases hnl

/-- Splitting the serialized text on newlines recovers exactly the
serialized line list. -/
theorem splitOn_serialize (cells : List PCell) (hwf : ∀ c ∈ cells, WfCell c)
    (hne : cells ≠ []) :
    (serialize_notebook cells).splitOn '\n' = serLines cells := by
  rw [serialize_eq_intercalate cells hne]
  refine List.splitOn_intercalate (serLines cells) '\n' (serLines_no_newline cells hwf) ?_
  cases cells with
  | nil => exact absurd rfl hne
  | cons c rest => exact serLines_ne_nil c rest

/-- Non-marker lines are collected verbatim into the open cell. -/
theorem parseLines_code_lines (gen : Nat → Str) (h : Str × Str × Option Str) :
    ∀ (cl ls acc : List Str) (k : Nat),
      (∀ l ∈ cl, markerMatch l = none) →
      parseLines gen (cl ++ ls) (some h) acc k
        = parseLines gen ls (some h) (acc ++ cl) k := by
  intro cl
  induction cl with
  | nil =>
    intro ls acc k _
    rw [List.nil_append, List.append_nil]
  | cons l cl' ih =>
    intro ls acc k hno
    rw [List.cons_append, parseLines_cons, hno l (List.mem_cons_self _ _)]
    have h2 := ih ls (acc ++ [l]) k (fun x hx => hno x (List.mem_cons_of_mem _ hx))
    rw [List.append_assoc] at h2
    exact h2

/-- The bracket content of a serialized marker line matches back. -/
theorem markerMatch_build (inner : Str) (hb : (']' : Char) ∉ inner)
    (hne : inner ≠ []) :
    markerMatch (lit "# %% [" ++ inner ++ lit "]") = some inner := by
  have hall : ∀ a ∈ inner, (decide (a ≠ ']')) = true := by
    intro a ha
    simp only [decide_eq_true_eq]
    intro heq
    exact hb (heq ▸ ha)
  have hline : lit "# %% [" ++ inner ++ lit "]"
      = lit "# %%" ++ (' ' :: '[' :: (inner ++ [']'])) := by
    simp [lit, List.append_assoc]
  rw [hline]
  unfold markerMatch
  rw [dropLit_append]
  show (match (' ' :: '[' :: (inner ++ [']'])).dropWhile pyWs with
      | '[' :: rest2 =>
        match rest2.dropWhile (fun c => c ≠ ']') with
        | ']' :: tail =>
          if rest2.takeWhile (fun c => c ≠ ']') ≠ [] ∧ tail.all pyWs then
            some (rest2.takeWhile (fun c => c ≠ ']'))
          else none
        | _ => none
      | _ => none) = some inner
  rw [show (' ' :: '[' :: (inner ++ [']'])).dropWhile pyWs = '[' :: (inner ++ [']'])
    from by
      rw [List.dropWhile_cons, if_pos (by decide)]
      exact dropWhile_cons_false _ _ (by decide)]
  show (match (inner ++ [']']).dropWhile (fun c => c ≠ ']') with
      | ']' :: tail =>
        if (inner ++ [']']).takeWhile (fun c => c ≠ ']') ≠ [] ∧ tail.all pyWs then
          some ((inner ++ [']']).takeWhile (fun c => c ≠ ']'))
        else none
      | _ => none) = some inner
  rw [show (inner ++ [']']).dropWhile (fun c => c ≠ ']') = [']'] from by
    rw [dropWhile_append_all inner [']'] hall]
    exact dropWhile_cons_false _ _ (by decide)]
  show (if (inner ++ [']']).takeWhile (fun c => c ≠ ']') ≠ [] ∧ ([] : Str).all pyWs then
      some ((inner ++ [']']).takeWhile (fun c => c ≠ ']'))
    else none) = some inner
  rw [show (inner ++ [']']).takeWhile (fun c => c ≠ ']') = inner from by
    rw [takeWhile_append_all inner [']'] hall,
      takeWhile_cons_false _ _ (by decide), List.append_nil]]
  rw [if_pos ⟨hne, rfl⟩]

/-- Splitting a comma-joined part list on commas recovers the parts,
each later part carrying the space of the `", "` separator. -/
theorem splitOn_comma_intercalate :
    ∀ (parts : List Str) (p : Str),
      ((',' : Char) ∉ p) → (∀ q ∈ parts, (',' : Char) ∉ q) →
      (List.intercalate (lit ", ") (p :: parts)).splitOn ','
        = p :: parts.map (fun q => ' ' :: q) := by
  intro parts
  induction parts with
  | nil =>
    intro p hp _
    rw [intercalate_singleton, List.map_nil]
    show List.splitOnP (· == ',') p = [p]
    refine List.splitOnP_eq_single _ _ ?_
    intro x hx
    simp only [beq_iff_eq]
    intro heq
    exact hp (heq ▸ hx)
  | cons q t ih =>
    intro p hp hparts
    rw [intercalate_cons_cons]
    rw [show p ++ lit ", " ++ List.intercalate (lit ", ") (q :: t)
        = p ++ (',' :: (' ' :: List.intercalate (lit ", ") (q :: t))) from by
      simp [lit, List.append_assoc]]
    show List.splitOnP (· == ',')
        (p ++ ',' :: (' ' :: List.intercalate (lit ", ") (q :: t)))
      = p :: (q :: t).map (fun r => ' ' :: r)
    rw [List.splitOnP_first _ p
      (fun x hx => by simp only [beq_iff_eq]; exact fun heq => hp (heq ▸ hx))
      ',' (by simp) (' ' :: List.intercalate (lit ", ") (q :: t))]
    congr 1
    rw [List.splitOnP_cons, if_neg (by decide)]
    have h2 := ih q (hparts q (List.mem_cons_self _ _))
      (fun r hr => hparts r (List.mem_cons_of_mem _ hr))
    rw [show List.splitOnP (fun x => x == ',') (List.intercalate (lit ", ") (q :: t))
        = q :: t.map (fun r => ' ' :: r) from h2]
    rfl

/-- Strings with no whitespace characters are already stripped. -/
theorem pyStrip_of_no_ws {kw : Str} (h : ∀ a ∈ kw, pyWs a = false) :
    pyStrip kw = kw := by
  apply pyStrip_of_stripped
  constructor
  · cases kw with
    | nil => rfl
    | cons a t => exact dropWhile_cons_false a t (h a (List.mem_cons_self _ _))
  · cases hr : kw.reverse with
    | nil => rfl
    | cons a t =>
      refine dropWhile_cons_false a t (h a ?_)
      rw [← List.mem_reverse, hr]
      exact List.mem_cons_self _ _

/-- One `parse_marker` fold step on a piece that strips to
`key: value` inserts exactly that binding. -/
theorem parseMarkerStep_eq (acc : List (Str × Str)) (part kw v : Str)
    (hkwne : kw ≠ []) (hkw : ∀ a ∈ kw, pyWs a = false ∧ a ≠ ':')
    (hv : pyStrip v = v)
    (hpart : pyStrip part = pyStrip (kw ++ ':' :: ' ' :: v)) :
    parseMarkerStep acc part = dinsert acc kw v := by
  have hkwall : ∀ a ∈ kw, (decide (a ≠ ':')) = true := by
    intro a ha
    simp only [decide_eq_true_eq]
    exact (hkw a ha).2
  have hkwstr : pyStrip kw = kw := pyStrip_of_no_ws (fun a ha => (hkw a ha).1)
  have hfront : ∀ (X : Str), ((kw ++ X : Str)).dropWhile pyWs = kw ++ X := by
    intro X
    cases hk : kw with
    | nil => exact absurd hk hkwne
    | cons a t =>
      rw [List.cons_append]
      exact dropWhile_cons_false _ _
        ((hkw a (by rw [hk]; exact List.mem_cons_self _ _)).1)
  show parseMarkerStep acc part = dinsert acc kw v
  unfold parseMarkerStep
  cases hvc : v with
  | nil =>
    have hps : pyStrip (kw ++ ':' :: ' ' :: ([] : Str)) = kw ++ [':'] := by
      show pyStrip (kw ++ [':', ' ']) = kw ++ [':']
      rw [pyStrip, hfront, List.reverse_append]
      rw [show ([':', ' '] : Str).reverse = [' ', ':'] from rfl]
      rw [show (([' ', ':'] ++ kw.reverse : Str)).dropWhile pyWs = ':' :: kw.reverse from by
        rw [show ([' ', ':'] ++ kw.reverse : Str) = ' ' :: (':' :: kw.reverse) from rfl]
        rw [List.dropWhile_cons, if_pos (by decide)]
        exact dropWhile_cons_false _ _ (by decide)]
      rw [List.reverse_cons, List.reverse_reverse]
    rw [hvc] at hpart
    rw [hpart, hps]
    simp only []
    rw [if_pos (List.mem_append.2 (Or.inr (List.mem_singleton.2 rfl)))]
    rw [takeWhile_append_all kw [':'] hkwall, takeWhile_cons_false _ _ (by decide),
      List.append_nil, hkwstr]
    rw [dropWhile_append_all kw [':'] hkwall, dropWhile_cons_false _ _ (by decide)]
    rfl
  | cons v0 vt =>
    rw [hvc] at hv
    obtain ⟨hv1, hv2⟩ := stripped_of_pyStrip hv
    have hps : pyStrip (kw ++ ':' :: ' ' :: (v0 :: vt)) = kw ++ ':' :: ' ' :: (v0 :: vt) := by
      apply pyStrip_of_stripped
      constructor
      · exact hfront _
      · rw [List.reverse_append]
        rw [show ((':' :: ' ' :: (v0 :: vt)) : Str).reverse
            = (v0 :: vt).reverse ++ [' ', ':'] from by
          rw [List.reverse_cons, List.reverse_cons, List.append_assoc]
          rfl]
        cases hr : (v0 :: vt).reverse with
        | nil => exact absurd (congrArg List.length hr) (by simp)
        | cons r0 rt =>
          rw [hr] at hv2
          have hr0 : pyWs r0 = false := head_dropWhile _ r0 rt hv2
          rw [List.cons_append, List.cons_append]
          exact dropWhile_cons_false _ _ hr0
    rw [hvc] at hpart
    rw [hpart, hps]
    simp only []
    rw [if_pos (List.mem_append.2 (Or.inr (List.mem_cons_self _ _)))]
    rw [takeWhile_append_all kw _ hkwall, takeWhile_cons_false _ _ (by decide),
      List.append_nil, hkwstr]
    rw [dropWhile_append_all kw _ hkwall, dropWhile_cons_false _ _ (by decide)]
    rw [show ((':' :: ' ' :: (v0 :: vt) : Str)).drop 1 = ' ' :: (v0 :: vt) from rfl]
    rw [pyStrip_cons_ws (by decide), hv]

/-- Characters of the marker content come from the separator, the key
literals, or the cell's marker values. -/
theorem innerOf_mem {c : PCell} {a : Char} (h : a ∈ innerOf c) :
    a ∈ lit ", " ∨ a ∈ lit "id: " ∨ a ∈ c.id ∨ a ∈ lit "type: " ∨ a ∈ c.cell_type
      ∨ a ∈ lit "as: " ∨ ∃ v, c.as_var = some v ∧ a ∈ v := by
  rcases mem_intercalate _ h with h1 | ⟨part, hpart, h2⟩
  · exact Or.inl h1
  · unfold markerParts at hpart
    rcases List.mem_append.1 hpart with h3 | h3
    · rcases List.mem_append.1 h3 with h4 | h4
      · rcases List.mem_singleton.1 h4 with rfl
        rcases List.mem_append.1 h2 with h5 | h5
        · exact Or.inr (Or.inl h5)
        · exact Or.inr (Or.inr (Or.inl h5))
      · by_cases hne : c.cell_type ≠ lit "python"
        · rw [if_pos hne] at h4
          rcases List.mem_singleton.1 h4 with rfl
          rcases List.mem_append.1 h2 with h5 | h5
          · exact Or.inr (Or.inr (Or.inr (Or.inl h5)))
          · exact Or.inr (Or.inr (Or.inr (Or.inr (Or.inl h5))))
        · rw [if_neg hne] at h4
          cases h4
    · by_cases htr : asTruthy c.as_var
      · rw [if_pos htr] at h3
        rcases List.mem_singleton.1 h3 with rfl
        rcases List.mem_append.1 h2 with h5 | h5
        · exact Or.inr (Or.inr (Or.inr (Or.inr (Or.inr (Or.inl h5)))))
        · cases hv : c.as_var with
          | none => rw [hv] at htr; cases htr
          | some v =>
            rw [hv] at h5
            exact Or.inr (Or.inr (Or.inr (Or.inr (Or.inr (Or.inr ⟨v, rfl, h5⟩)))))
      · rw [if_neg htr] at h3
        cases h3

/-- The marker content of a well-formed cell has no closing bracket. -/
theorem innerOf_no_rb (c : PCell) (hwf : WfCell c) : (']' : Char) ∉ innerOf c := by
  intro h
  obtain ⟨hid, hty, has, _⟩ := hwf
  rcases innerOf_mem h with h1 | h1 | h1 | h1 | h1 | h1 | ⟨v, hv, h1⟩
  · revert h1; decide
  · revert h1; decide
  · exact hid.2.1 h1
  · revert h1; decide
  · exact hty.2.1 h1
  · revert h1; decide
  · exact (has v hv).2.1 h1

theorem intercalate_cons_ne_nil {α : Type} (sep : List α) (p : List α)
    (t : List (List α)) (hp : p ≠ []) : List.intercalate sep (p :: t) ≠ [] := by
  cases t with
  | nil =>
    rw [intercalate_singleton]
    exact hp
  | cons q t2 =>
    rw [intercalate_cons_cons]
    simp [hp]

/-- The marker content of a cell is nonempty. -/
theorem innerOf_ne_nil (c : PCell) : innerOf c ≠ [] := by
  have h : innerOf c = List.intercalate (lit ", ")
      ((lit "id: " ++ c.id)
        :: ((if c.cell_type ≠ lit "python" then [lit "type: " ++ c.cell_type] else [])
            ++ (if asTruthy c.as_var then [lit "as: " ++ c.as_var.getD []] else []))) := rfl
  rw [h]
  apply intercalate_cons_ne_nil
  simp [lit]

/-- `hdrOfMarker` on the serialized marker content of a well-formed
cell recovers the cell's id, type and as binding and draws no fresh
id. -/
theorem hdrOfMarker_innerOf (gen : Nat → Str) (c : PCell) (k : Nat)
    (hwf : WfCell c) (hasv : c.as_var ≠ some []) :
    hdrOfMarker gen (innerOf c) k = ((c.id, c.cell_type, c.as_var), k) := by
  obtain ⟨hid, hty, has, _⟩ := hwf
  have hidc : (',' : Char) ∉ lit "id: " ++ c.id := by
    intro h
    rcases List.mem_append.1 h with h1 | h1
    · revert h1; decide
    · exact hid.2.2.1 h1
  have hstep1 : parseMarkerStep [] (lit "id: " ++ c.id) = dinsert [] (lit "id") c.id :=
    parseMarkerStep_eq [] (lit "id: " ++ c.id) (lit "id") c.id (by decide) (by decide)
      hid.1 rfl
  by_cases hpy : c.cell_type = lit "python"
  · cases hv : c.as_var with
    | none =>
      have hmp : markerParts c = [lit "id: " ++ c.id] := by
        unfold markerParts
        rw [if_neg (fun h2 => h2 hpy), hv, if_neg (by decide)]
        simp
      have hmd : parse_marker (innerOf c) = dinsert [] (lit "id") c.id := by
        unfold parse_marker innerOf
        rw [hmp]
        rw [splitOn_comma_intercalate [] _ hidc (fun q hq => absurd hq (List.not_mem_nil q))]
        rw [List.map_nil, List.foldl_cons, List.foldl_nil]
        exact hstep1
      simp only [hdrOfMarker]
      rw [hmd, dget_dinsert_self]
      rw [dget_dinsert_other [] c.id (show lit "id" ≠ lit "type" from by decide)]
      rw [dget_dinsert_other [] c.id (show lit "id" ≠ lit "as" from by decide)]
      rw [hpy]
      rfl
    | some v =>
      have hvne : v ≠ [] := by
        intro h2
        exact hasv (by rw [hv, h2])
      have htr : asTruthy (some v) = true := by
        unfold asTruthy
        simp [hvne]
      have hasc : (',' : Char) ∉ lit "as: " ++ v := by
        intro h
        rcases List.mem_append.1 h with h1 | h1
        · revert h1; decide
        · exact (has v hv).2.2.1 h1
      have hmp : markerParts c = [lit "id: " ++ c.id, lit "as: " ++ v] := by
        unfold markerParts
        rw [if_neg (fun h2 => h2 hpy), hv, if_pos htr]
        simp
      have hmd : parse_marker (innerOf c)
          = dinsert (dinsert [] (lit "id") c.id) (lit "as") v := by
        unfold parse_marker innerOf
        rw [hmp]
        rw [splitOn_comma_intercalate [lit "as: " ++ v] _ hidc
          (fun q hq => by rcases List.mem_singleton.1 hq with rfl; exact hasc)]
        rw [List.map_cons, List.map_nil, List.foldl_cons, List.foldl_cons, List.foldl_nil]
        rw [hstep1]
        exact parseMarkerStep_eq _ (' ' :: (lit "as: " ++ v)) (lit "as") v (by decide)
          (by decide) (has v hv).1 (pyStrip_cons_ws (by decide) _)
      simp only [hdrOfMarker]
      rw [hmd]
      rw [dget_dinsert_other _ v (show lit "as" ≠ lit "id" from by decide),
        dget_dinsert_self]
      rw [dget_dinsert_other _ v (show lit "as" ≠ lit "type" from by decide)]
      rw [dget_dinsert_other [] c.id (show lit "id" ≠ lit "type" from by decide)]
      rw [dget_dinsert_self]
      rw [hpy]
      rfl
  · cases hv : c.as_var with
    | none =>
      have htyc : (',' : Char) ∉ lit "type: " ++ c.cell_type := by
        intro h
        rcases List.mem_append.1 h with h1 | h1
        · revert h1; decide
        · exact hty.2.2.1 h1
      have hmp : markerParts c = [lit "id: " ++ c.id, lit "type: " ++ c.cell_type] := by
        unfold markerParts
        rw [if_pos hpy, hv, if_neg (by decide)]
        simp
      have hmd : parse_marker (innerOf c)
          = dinsert (dinsert [] (lit "id") c.id) (lit "type") c.cell_type := by
        unfold parse_marker innerOf
        rw [hmp]
        rw [splitOn_comma_intercalate [lit "type: " ++ c.cell_type] _ hidc
          (fun q hq => by rcases List.mem_singleton.1 hq with rfl; exact htyc)]
        rw [List.map_cons, List.map_nil, List.foldl_cons, List.foldl_cons, List.foldl_nil]
        rw [hstep1]
        exact parseMarkerStep_eq _ (' ' :: (lit "type: " ++ c.cell_type)) (lit "type")
          c.cell_type (by decide) (by decide) hty.1 (pyStrip_cons_ws (by decide) _)
      simp only [hdrOfMarker]
      rw [hmd]
      rw [dget_dinsert_other _ c.cell_type (show lit "type" ≠ lit "id" from by decide),
        dget_dinsert_self]
      rw [dget_dinsert_other _ c.cell_type (show lit "type" ≠ lit "as" from by decide)]
      rw [dget_dinsert_other [] c.id (show lit "id" ≠ lit "as" from by decide)]
      rw [dget_dinsert_self]
      rfl
    | some v =>
      have hvne : v ≠ [] := by
        intro h2
        exact hasv (by rw [hv, h2])
      have htr : asTruthy (some v) = true := by
        unfold asTruthy
        simp [hvne]
      have htyc : (',' : Char) ∉ lit "type: " ++ c.cell_type := by
        intro h
        rcases List.mem_append.1 h with h1 | h1
        · revert h1; decide
        · exact hty.2.2.1 h1
      have hasc : (',' : Char) ∉ lit "as: " ++ v := by
        intro h
        rcases List.mem_append.1 h with h1 | h1
        · revert h1; decide
        · exact (has v hv).2.2.1 h1
      have hmp : markerParts c
          = [lit "id: " ++ c.id, lit "type: " ++ c.cell_type, lit "as: " ++ v] := by
        unfold markerParts
        rw [if_pos hpy, hv, if_pos htr]
        simp
      have hmd : parse_marker (innerOf c)
          = dinsert (dinsert (dinsert [] (lit "id") c.id) (lit "type") c.cell_type)
              (lit "as") v := by
        unfold parse_marker innerOf
        rw [hmp]
        rw [splitOn_comma_intercalate [lit "type: " ++ c.cell_type, lit "as: " ++ v] _ hidc
          (fun q hq => by
            rcases List.mem_cons.1 hq with rfl | hq2
            · exact htyc
            · rcases List.mem_singleton.1 hq2 with rfl
              exact hasc)]
        rw [List.map_cons, List.map_cons, List.map_nil, List.foldl_cons, List.foldl_cons,
          List.foldl_cons, List.foldl_nil]
        rw [hstep1]
        rw [parseMarkerStep_eq _ (' ' :: (lit "type: " ++ c.cell_type)) (lit "type")
          c.cell_type (by decide) (by decide) hty.1 (pyStrip_cons_ws (by decide) _)]
        exact parseMarkerStep_eq _ (' ' :: (lit "as: " ++ v)) (lit "as") v (by decide)
          (by decide) (has v hv).1 (pyStrip_cons_ws (by decide) _)
      simp only [hdrOfMarker]
      rw [hmd]
      rw [dget_dinsert_other _ v (show lit "as" ≠ lit "id" from by decide)]
      rw [dget_dinsert_other _ c.cell_type (show lit "type" ≠ lit "id" from by decide),
        dget_dinsert_self]
      rw [dget_dinsert_other _ v (show lit "as" ≠ lit "type" from by decide)]
      rw [dget_dinsert_self]
      rw [dget_dinsert_self]
      rfl

/-- The line scan over a serialized well-formed cell list closes the
open cell and reproduces exactly those cells after it. -/
theorem parseLines_serLines (gen2 : Nat → Str) :
    ∀ (cells : List PCell) (h : Str × Str × Option Str) (acc : List Str) (k : Nat),
      (∀ c ∈ cells, WfCell c ∧ c.as_var ≠ some [] ∧
        ∀ l ∈ c.code.splitOn '\n', markerMatch l = none) →
      parseLines gen2 (serLines cells) (some h) acc k
        = closeCell h acc :: cells := by
  intro cells
  induction cells with
  | nil =>
    intro h acc k _
    rfl
  | cons c rest ih =>
    intro h acc k hall
    obtain ⟨hwf, hasv, hcode⟩ := hall c (List.mem_cons_self _ _)
    have hrest : ∀ c2 ∈ rest, WfCell c2 ∧ c2.as_var ≠ some [] ∧
        ∀ l ∈ c2.code.splitOn '\n', markerMatch l = none :=
      fun c2 hc2 => hall c2 (List.mem_cons_of_mem _ hc2)
    have hsl : serLines (c :: rest)
        = markerLineOf c :: ((c.code.splitOn '\n' ++ [[]]) ++ serLines rest) := by
      unfold serLines
      simp
    rw [hsl, parseLines_cons]
    rw [show markerMatch (markerLineOf c) = some (innerOf c) from by
      rw [show markerLineOf c = lit "# %% [" ++ innerOf c ++ lit "]" from rfl]
      exact markerMatch_build _ (innerOf_no_rb c hwf) (innerOf_ne_nil c)]
    show flushCur (some h) acc
        ++ parseLines gen2 ((c.code.splitOn '\n' ++ [[]]) ++ serLines rest)
            (some (hdrOfMarker gen2 (innerOf c) k).1) [] (hdrOfMarker gen2 (innerOf c) k).2
      = closeCell h acc :: (c :: rest)
    rw [hdrOfMarker_innerOf gen2 c k hwf hasv]
    show flushCur (some h) acc
        ++ parseLines gen2 ((c.code.splitOn '\n' ++ [[]]) ++ serLines rest)
            (some (c.id, c.cell_type, c.as_var)) [] k
      = closeCell h acc :: (c :: rest)
    rw [List.append_assoc]
    rw [parseLines_code_lines gen2 (c.id, c.cell_type, c.as_var) (c.code.splitOn '\n')
      ([[]] ++ serLines rest) [] k hcode]
    show flushCur (some h) acc
        ++ parseLines gen2 ([] :: serLines rest) (some (c.id, c.cell_type, c.as_var))
            (c.code.splitOn '\n') k
      = closeCell h acc :: (c :: rest)
    rw [parseLines_cons, show markerMatch [] = none from rfl]
    show flushCur (some h) acc
        ++ parseLines gen2 (serLines rest) (some (c.id, c.cell_type, c.as_var))
            (c.code.splitOn '\n' ++ [[]]) k
      = closeCell h acc :: (c :: rest)
    rw [ih (c.id, c.cell_type, c.as_var) (c.code.splitOn '\n' ++ [[]]) k hrest]
    have hclose : closeCell (c.id, c.cell_type, c.as_var) (c.code.splitOn '\n' ++ [[]])
        = c := by
      unfold closeCell
      rw [show List.intercalate ['\n'] (c.code.splitOn '\n' ++ [[]])
          = c.code ++ ['\n'] from by
        rw [intercalate_concat_piece _ _ _ (splitOn_ne_nil '\n' c.code), List.append_nil,
          List.intercalate_splitOn c.code '\n']]
      rw [pyStrip_append_newline hwf.2.2.2]
    rw [hclose]
    rfl

/-- C9 (amended).  Parsing a notebook, serializing the parsed cells,
and re-parsing the serialized text reproduces the first parse exactly —
all four fields of every cell — provided the generated cell ids are
well formed, no parsed cell carries the empty string as its `as`
binding (serialization drops a falsy `as`, turning it into null on
re-parse), and no parsed cell has a code line that `strip` turns into a
marker line (such a line re-parses as a new cell boundary). -/
theorem round_trip_parse_serialize (content : Str) (gen gen2 : Nat → Str)
    (hgen : ∀ n, WfVal (gen n))
    (hasv : ∀ c ∈ parse_notebook content gen, c.as_var ≠ some [])
    (hcode : ∀ c ∈ parse_notebook content gen,
      ∀ l ∈ c.code.splitOn '\n', markerMatch l = none) :
    parse_notebook (serialize_notebook (parse_notebook content gen)) gen2
      = parse_notebook content gen := by
  have hwf := parse_notebook_wf content gen hgen
  cases hcells : parse_notebook content gen with
  | nil =>
    rw [show serialize_notebook [] = [] from rfl]
    rfl
  | cons c0 rest =>
    rw [hcells] at hwf hasv hcode
    have hwf0 := hwf c0 (List.mem_cons_self _ _)
    have hasv0 := hasv c0 (List.mem_cons_self _ _)
    have hcode0 := hcode c0 (List.mem_cons_self _ _)
    unfold parse_notebook
    rw [splitOn_serialize (c0 :: rest) hwf (by simp)]
    have hsl : serLines (c0 :: rest)
        = markerLineOf c0 :: ((c0.code.splitOn '\n' ++ [[]]) ++ serLines rest) := by
      unfold serLines
      simp
    rw [hsl, parseLines_cons]
    rw [show markerMatch (markerLineOf c0) = some (innerOf c0) from by
      rw [show markerLineOf c0 = lit "# %% [" ++ innerOf c0 ++ lit "]" from rfl]
      exact markerMatch_build _ (innerOf_no_rb c0 hwf0) (innerOf_ne_nil c0)]
    show flushCur none []
        ++ parseLines gen2 ((c0.code.splitOn '\n' ++ [[]]) ++ serLines rest)
            (some (hdrOfMarker gen2 (innerOf c0) 0).1) [] (hdrOfMarker gen2 (innerOf c0) 0).2
      = c0 :: rest
    rw [hdrOfMarker_innerOf gen2 c0 0 hwf0 hasv0]
    show parseLines gen2 ((c0.code.splitOn '\n' ++ [[]]) ++ serLines rest)
        (some (c0.id, c0.cell_type, c0.as_var)) [] 0
      = c0 :: rest
    rw [List.append_assoc]
    rw [parseLines_code_lines gen2 (c0.id, c0.cell_type, c0.as_var) (c0.code.splitOn '\n')
      ([[]] ++ serLines rest) [] 0 hcode0]
    show parseLines gen2 ([] :: serLines rest) (some (c0.id, c0.cell_type, c0.as_var))
        (c0.code.splitOn '\n') 0
      = c0 :: rest
    rw [parseLines_cons, show markerMatch [] = none from rfl]
    show parseLines gen2 (serLines rest) (some (c0.id, c0.cell_type, c0.as_var))
        (c0.code.splitOn '\n' ++ [[]]) 0
      = c0 :: rest
    rw [parseLines_serLines gen2 rest (c0.id, c0.cell_type, c0.as_var)
      (c0.code.splitOn '\n' ++ [[]]) 0
      (fun c2 hc2 => ⟨hwf c2 (List.mem_cons_of_mem _ hc2),
        hasv c2 (List.mem_cons_of_mem _ hc2), hcode c2 (List.mem_cons_of_mem _ hc2)⟩)]
    congr 1
    unfold closeCell
    rw [show List.intercalate ['\n'] (c0.code.splitOn '\n' ++ [[]])
        = c0.code ++ ['\n'] from by
      rw [intercalate_concat_piece _ _ _ (splitOn_ne_nil '\n' c0.code), List.append_nil,
        List.intercalate_splitOn c0.code '\n']]
    rw [pyStrip_append_newline hwf0.2.2.2]

/-- C9 witness: a concrete two-cell notebook exercising id, type and
as markers round-trips exactly. -/
theorem round_trip_parse_serialize_witness :
    parse_notebook (serialize_notebook (parse_notebook rtText1 rtGen)) rtGen
      = parse_notebook rtText1 rtGen :=
  round_trip_parse_serialize rtText1 rtGen rtGen
    (fun _ => (by decide : WfVal (lit "deadbeef"))) (by decide) (by decide)

/-- C9 counterexample to the unamended claim: a code line whose
stripped form is a marker line (here `" # %% [id: b]"`, stripped by the
cell-source `strip` to `"# %% [id: b]"`) re-parses as a new cell
boundary, so the re-parse returns different cell identifiers than the
first parse. -/
theorem round_trip_identifiers_differ :
    (parse_notebook (serialize_notebook (parse_notebook rtText2 rtGen)) rtGen).map PCell.id
      ≠ (parse_notebook rtText2 rtGen).map PCell.id := by
  decide

end NotebookSpec
